import Mathlib

/-!
Blackjack engine: a shallow embedding of `blackjack.cpp`.

The C++ program is embedded as pure Lean functions.

* `std::vector<Card>` is a `List Card` in index order, so `push_back` appends
  at the end and `back`/`pop_back` work on the last element.
* `int` values are integers (`Int`). The scores of a hand stay far inside the
  32-bit range. The balance is a 32-bit `int`: the winning update
  `balance += bet` is the wrapped 32-bit sum `addInt32`, and `balance -= bet`
  is only reached with `1 <= bet <= balance`, where the difference is exact.
* Operations with undefined behaviour in C++ (`back` on an empty vector) and
  reads from an exhausted or ill-typed input return `none`.
-/

namespace Blackjack

/-! ## Card -/

/-- The enumeration `Card::Suit`: `HEARTS = 0`, ..., `SPADES = 3`. -/
inductive Suit where
  | HEARTS | DIAMONDS | CLUBS | SPADES
  deriving DecidableEq, Repr

/-- The enumeration `Card::Rank`: `ACE = 1`, `TWO`, ..., `KING = 13`. -/
inductive Rank where
  | ACE | TWO | THREE | FOUR | FIVE | SIX | SEVEN | EIGHT | NINE | TEN
  | JACK | QUEEN | KING
  deriving DecidableEq, Repr

/-- The integer value of a `Card::Suit` enumerator. -/
def Suit.toNat : Suit → Nat
  | .HEARTS => 0 | .DIAMONDS => 1 | .CLUBS => 2 | .SPADES => 3

/-- The integer value of a `Card::Rank` enumerator (`ACE = 1`). -/
def Rank.toNat : Rank → Nat
  | .ACE => 1 | .TWO => 2 | .THREE => 3 | .FOUR => 4 | .FIVE => 5 | .SIX => 6
  | .SEVEN => 7 | .EIGHT => 8 | .NINE => 9 | .TEN => 10
  | .JACK => 11 | .QUEEN => 12 | .KING => 13

/-- The cast `(Card::Suit)s` as the deck constructor uses it, on `0..3`. -/
def Suit.fromNat : Nat → Suit
  | 0 => .HEARTS | 1 => .DIAMONDS | 2 => .CLUBS | _ => .SPADES

/-- The cast `(Card::Rank)r` as the deck constructor uses it, on `1..13`. -/
def Rank.fromNat : Nat → Rank
  | 1 => .ACE | 2 => .TWO | 3 => .THREE | 4 => .FOUR | 5 => .FIVE | 6 => .SIX
  | 7 => .SEVEN | 8 => .EIGHT | 9 => .NINE | 10 => .TEN
  | 11 => .JACK | 12 => .QUEEN | _ => .KING

/-- The class `Card`: the constructor `Card(r, s)` stores both arguments. -/
structure Card where
  rank : Rank
  suit : Suit
  deriving DecidableEq, Repr

/-- The accessor `Card::getRank`. -/
def Card.getRank (c : Card) : Rank := c.rank

/-- The accessor `Card::getSuit`. -/
def Card.getSuit (c : Card) : Suit := c.suit

/-- The method `Card::getValue`: `if (rank > 10) return 10; if (rank == ACE) return 11;
return (int)rank;`. -/
def Card.getValue (c : Card) : Int :=
  if c.rank.toNat > 10 then 10
  else if c.rank = Rank.ACE then 11
  else (c.rank.toNat : Int)

/-! ## Hand scoring -/

/-- The `for` loop of `calculatePoints`: one step adds the card's value to
`total` and counts it in `aceCount` when the value is 11. -/
def scoreStep (acc : Int × Nat) (card : Card) : Int × Nat :=
  let val := card.getValue
  (acc.1 + val, if val = 11 then acc.2 + 1 else acc.2)

/-- The loop `while (total > 21 && aceCount > 0) { total -= 10; aceCount--; }`,
run for at most `fuel` iterations; it returns `(total, aceCount)`. -/
def aceLoop : Nat → Int → Nat → Int × Nat
  | 0, total, aceCount => (total, aceCount)
  | fuel + 1, total, aceCount =>
    if total > 21 ∧ aceCount > 0 then aceLoop fuel (total - 10) (aceCount - 1)
    else (total, aceCount)

/-- The function `calculatePoints`. The `while` loop decrements `aceCount` in
every iteration, so `aceCount` iterations of fuel are enough. -/
def calculatePoints (hand : List Card) : Int :=
  let acc := hand.foldl scoreStep (0, 0)
  (aceLoop acc.2 acc.1 acc.2).1

/-- The total of a hand with every Ace counted as 1. -/
def lowTotal : List Card → Int
  | [] => 0
  | c :: cs => (if c.rank = Rank.ACE then 1 else c.getValue) + lowTotal cs

/-- Every total a hand can be given when each Ace counts as 1 or as 11 and
every other card counts at its `getValue`. -/
def aceTotals : List Card → List Int
  | [] => [0]
  | c :: cs =>
    if c.rank = Rank.ACE then
      (aceTotals cs).map (fun t => 1 + t) ++ (aceTotals cs).map (fun t => 11 + t)
    else (aceTotals cs).map (fun t => c.getValue + t)

/-- The number of Aces of a hand. -/
def aceCount : List Card → Nat
  | [] => 0
  | c :: cs => (if c.rank = Rank.ACE then 1 else 0) + aceCount cs

/-! ## Deck -/

/-- The class `Deck`: its only member is the vector `cards`. -/
structure Deck where
  cards : List Card
  deriving DecidableEq, Repr

/-- The loop `for (int i = lo; i <= hi; ++i) body`, threading the state the
body updates; `fuel` bounds the number of iterations. -/
def forLoopAux {σ : Type} (hi : Nat) (body : Nat → σ → σ) : Nat → Nat → σ → σ
  | 0, _, st => st
  | fuel + 1, i, st => if i ≤ hi then forLoopAux hi body fuel (i + 1) (body i st) else st

/-- The loop `for (int i = lo; i <= hi; ++i) body`: it runs `hi + 1 - lo`
times, so that much fuel ends it on its own condition. -/
def forLoop {σ : Type} (lo hi : Nat) (body : Nat → σ → σ) (st : σ) : σ :=
  forLoopAux hi body (hi + 1 - lo) lo st

/-- The constructor `Deck::Deck`: for every suit from `HEARTS` to `SPADES`, for
every rank from `ACE` to `KING`, `push_back` the card of that rank and suit. -/
def Deck.new : Deck :=
  ⟨forLoop Suit.HEARTS.toNat Suit.SPADES.toNat
    (fun s cards =>
      forLoop Rank.ACE.toNat Rank.KING.toNat
        (fun r cards => cards ++ [Card.mk (Rank.fromNat r) (Suit.fromNat s)]) cards)
    []⟩

/-- The method `Deck::shuffleDeck`. The call `std::shuffle(cards.begin(), cards.end(), rng)`
with its freshly seeded engine is library code: it is the parameter `rng`, the
reordering this call happens to apply. -/
def Deck.shuffleDeck (rng : List Card → List Card) (d : Deck) : Deck :=
  ⟨rng d.cards⟩

/-- The method `Deck::drawCard`: `Card drawn = cards.back(); cards.pop_back(); return drawn;`.
On an empty vector `back` is undefined behaviour: the result is `none`. -/
def Deck.drawCard (d : Deck) : Option (Card × Deck) :=
  match d.cards.getLast? with
  | none => none
  | some drawn => some (drawn, ⟨d.cards.dropLast⟩)

/-- The result of `n` successive calls of `drawCard`: the cards in the order
they were returned, and the deck that is left. -/
def Deck.drawMany : Nat → Deck → Option (List Card × Deck)
  | 0, d => some ([], d)
  | n + 1, d =>
    match d.drawCard with
    | none => none
    | some (c, d1) =>
      match Deck.drawMany n d1 with
      | none => none
      | some (cs, d2) => some (c :: cs, d2)

/-! ## Rendering -/

/-- The local array `ranks` of `drawHand`. -/
def ranks : List String :=
  ["", "A", "2", "3", "4", "5", "6", "7", "8", "9", "10", "J", "Q", "K"]

/-- The local array `suitChars` of `drawHand`. -/
def suitChars : List String := ["H", "D", "C", "S"]

/-- The local array `suitFull` of `drawHand`. -/
def suitFull : List String := ["Hearts", "Diamonds", "Clubs", "Spades"]

/-- The loop `for (size_t i = 0; i < hand.size(); i++) cout << piece(i, hand[i]);`:
the pieces written for the indices `0 .. size-1`, in order. -/
def handRow (hand : List Card) (piece : Nat → Card → String) : String :=
  String.join (hand.enum.map (fun ic => piece ic.1 ic.2))

/-- The text `drawHand(hand, owner, hideFirst)` writes to `cout`; `endl` is a
newline. -/
def drawHand (hand : List Card) (owner : String) (hideFirst : Bool) : String :=
  "\n--- " ++ owner ++ " ---" ++ "\n"
  ++ handRow hand (fun _ _ => "┌─────────┐ ") ++ "\n"
  ++ handRow hand (fun i c =>
      if i = 0 ∧ hideFirst = true then "│ ?       │ "
      else
        let r := ranks.getD c.getRank.toNat ""
        if r = "10" then "│ " ++ r ++ "      │ " else "│ " ++ r ++ "       │ ") ++ "\n"
  ++ handRow hand (fun i c =>
      if i = 0 ∧ hideFirst = true then "│    ?    │ "
      else "│    " ++ suitChars.getD c.getSuit.toNat "" ++ "    │ ") ++ "\n"
  ++ handRow hand (fun i c =>
      if i = 0 ∧ hideFirst = true then "│       ? │ "
      else
        let r := ranks.getD c.getRank.toNat ""
        if r = "10" then "│      " ++ r ++ " │ " else "│       " ++ r ++ " │ ") ++ "\n"
  ++ handRow hand (fun _ _ => "└─────────┘ ") ++ "\n"
  ++ "Log: "
  ++ handRow hand (fun i c =>
      if i = 0 ∧ hideFirst = true then "[HIDDEN] "
      else "[" ++ ranks.getD c.getRank.toNat "" ++ " "
        ++ suitFull.getD c.getSuit.toNat "" ++ "] ") ++ "\n"

/-! ## Machine integers -/

/-- The largest value of a 32-bit `int`. -/
def INT_MAX : Int := 2147483647

/-- The smallest value of a 32-bit `int`. -/
def INT_MIN : Int := -2147483648

/-- The values a 32-bit `int` can hold. -/
def inIntRange (x : Int) : Prop := INT_MIN ≤ x ∧ x ≤ INT_MAX

/-- The 32-bit two's complement value of an integer: what a 32-bit register
holds after an operation whose exact result is `x`. -/
def wrapInt32 (x : Int) : Int := (x + 2147483648) % 4294967296 - 2147483648

/-- The update `balance += bet` on 32-bit `int` variables: the sum as the
32-bit register holds it. -/
def addInt32 (a b : Int) : Int := wrapInt32 (a + b)

/-! ## The game loop of `main` -/

/-- One item of standard input: an integer that fits an `int`, as `cin >> bet`
reads it, or one non-blank character, as `cin >> choice` and
`cin >> playAgain` read it. A numeral too large for `int` is outside this
input model. -/
inductive Token where
  | num (n : Int)
  | chr (c : Char)
  deriving DecidableEq, Repr

/-- The initial deal: `playerHand = {deck.drawCard(), deck.drawCard()}` and then
`dealerHand = {deck.drawCard(), deck.drawCard()}`, the elements of each braced
list evaluated left to right. The result is the deck and the two hands. -/
def deal (deck : Deck) : Option (Deck × List Card × List Card) :=
  match deck.drawCard with
  | none => none
  | some (p1, d1) =>
    match d1.drawCard with
    | none => none
    | some (p2, d2) =>
      match d2.drawCard with
      | none => none
      | some (q1, d3) =>
        match d3.drawCard with
        | none => none
        | some (q2, d4) => some (d4, [p1, p2], [q1, q2])

/-- The state the player's loop leaves behind: the unread input, the deck, the
player's hand and the text written so far. -/
structure PlayerTurn where
  input : List Token
  deck : Deck
  playerHand : List Card
  out : List String

/-- The player's loop `while (playerActive) { ... }`. Each pass renders both
hands and the total, leaves by `break` when the total is at least 21, and
otherwise reads `choice`: `'h'` pushes a drawn card, any other character clears
`playerActive`. A missing or non-character input item gives `none`. -/
def playerLoop (dealerHand : List Card) :
    List Token → Deck → List Card → List String → Option PlayerTurn
  | input, deck, playerHand, out =>
    let p := calculatePoints playerHand
    let out1 := out ++ [drawHand dealerHand "DEALER HAND" true,
      drawHand playerHand "PLAYER HAND" false,
      "\nYOUR TOTAL: " ++ toString p ++ "\n"]
    if p ≥ 21 then some ⟨input, deck, playerHand, out1⟩
    else
      let out2 := out1 ++ ["ACTION: [h] Hit | [s] Stand: "]
      match input with
      | Token.chr choice :: rest =>
        if choice = 'h' then
          match deck.drawCard with
          | none => none
          | some (card, deck1) => playerLoop dealerHand rest deck1 (playerHand ++ [card]) out2
        else some ⟨rest, deck, playerHand, out2⟩
      | Token.num _ :: _ => none
      | [] => none

/-- The dealer's loop
`while (calculatePoints(dealerHand) < 17) dealerHand.push_back(deck.drawCard());`
run for at most `fuel` tests of its condition. It returns the deck and the
dealer's hand; running out of fuel or drawing from an empty deck gives `none`. -/
def dealerLoop : Nat → Deck → List Card → Option (Deck × List Card)
  | 0, _, _ => none
  | fuel + 1, deck, dealerHand =>
    if calculatePoints dealerHand < 17 then
      match deck.drawCard with
      | none => none
      | some (card, deck1) => dealerLoop fuel deck1 (dealerHand ++ [card])
    else some (deck, dealerHand)

/-- The dealer's loop with the fuel that always suffices: every pass but the
last draws a card, so there are at most `size + 1` tests of the condition
before the deck is empty. -/
def dealerTurn (deck : Deck) (dealerHand : List Card) : Option (Deck × List Card) :=
  dealerLoop (deck.cards.length + 1) deck dealerHand

/-- The state at the end of a round: the new balance, the unread input, the
deck, both hands and the text written so far. -/
structure Round where
  balance : Int
  input : List Token
  deck : Deck
  playerHand : List Card
  dealerHand : List Card
  out : List String

/-- The comparison of the final totals, once the dealer has played:
`if (dealerFinal > 21 || playerFinal > dealerFinal) balance += bet;
else if (dealerFinal > playerFinal) balance -= bet; else` push. The result is
the new balance and the message written. The sum of the winning update is the
32-bit one; the difference `balance - bet` is taken with `1 <= bet <= balance`
and so is exact in 32 bits. -/
def settle (balance bet playerFinal dealerFinal : Int) : Int × String :=
  if dealerFinal > 21 ∨ playerFinal > dealerFinal then
    (addInt32 balance bet, "WINNER! Player beats Dealer. Balance +$" ++ toString bet ++ "\n")
  else if dealerFinal > playerFinal then
    (balance - bet, "DEALER WINS! Player loses. Balance -$" ++ toString bet ++ "\n")
  else
    (balance, "PUSH! It's a tie. Bet returned." ++ "\n")

/-- The evaluation of a round, after the player's loop: a player total above 21
is a bust that costs the bet; otherwise the dealer draws, the final dealer hand
is rendered and the totals are compared. -/
def evaluate (balance bet : Int) (pt : PlayerTurn) (dealerHand : List Card) : Option Round :=
  let playerFinal := calculatePoints pt.playerHand
  if playerFinal > 21 then
    some ⟨balance - bet, pt.input, pt.deck, pt.playerHand, dealerHand,
      pt.out ++ ["\nBUST! Player went over 21. Balance -$" ++ toString bet ++ "\n"]⟩
  else
    let out1 := pt.out ++ ["\n--- DEALER'S TURN ---" ++ "\n"]
    match dealerTurn pt.deck dealerHand with
    | none => none
    | some (deck1, dealerHand1) =>
      let out2 := out1 ++ [drawHand dealerHand1 "FINAL DEALER HAND" false]
      let dealerFinal := calculatePoints dealerHand1
      let res := settle balance bet playerFinal dealerFinal
      some ⟨res.1, pt.input, deck1, pt.playerHand, dealerHand1, out2 ++ [res.2]⟩

/-- One round with an accepted bet: `Deck deck; deck.shuffleDeck();`, the
initial deal, the player's loop and the evaluation. -/
def playRound (rng : List Card → List Card) (balance bet : Int)
    (input : List Token) (out : List String) : Option Round :=
  match deal (Deck.new.shuffleDeck rng) with
  | none => none
  | some (deck, playerHand, dealerHand) =>
    match playerLoop dealerHand input deck playerHand out with
    | none => none
    | some pt => evaluate balance bet pt dealerHand

/-- The state of `main` between two passes of its game loop: the variables
`balance` and `playAgain`, the unread input, the reorderings the coming
shuffles will apply, and the text written so far. -/
structure Session where
  balance : Int
  playAgain : Char
  input : List Token
  rng : List (List Card → List Card)
  out : List String

/-- The condition of the game loop:
`balance > 0 && (playAgain == 'y' || playAgain == 'Y')`. -/
def loopCond (st : Session) : Bool :=
  decide (st.balance > 0) && (st.playAgain == 'y' || st.playAgain == 'Y')

/-- The end of a pass that played a round: with a positive balance the
program asks for, and reads, `playAgain`; otherwise it announces the end and
reads nothing. `rngs` are the reorderings left for later shuffles. -/
def afterRound (playAgain : Char) (rngs : List (List Card → List Card)) (r : Round) :
    Option Session :=
  if r.balance > 0 then
    match r.input with
    | Token.chr c :: input2 =>
      some ⟨r.balance, c, input2, rngs, r.out ++ ["\nPlay another round? (y/n): "]⟩
    | _ => none
  else
    some ⟨r.balance, playAgain, r.input, rngs,
      r.out ++ ["\nGAME OVER! Zero balance." ++ "\n"]⟩

/-- One pass of the body of the game loop: read the bet; an invalid bet prints
the message and `continue`s; a valid one plays a round and ends the pass with
`afterRound`. A missing or non-numeric input item gives `none`. -/
def loopBody (st : Session) : Option Session :=
  match st.input with
  | Token.num bet :: input1 =>
    let out1 := st.out ++ ["\nBALANCE: $" ++ toString st.balance ++ " | Enter bet: "]
    if bet > st.balance ∨ bet ≤ 0 then
      some { st with input := input1,
                     out := out1 ++ ["Invalid bet! Input must be between 1 and current balance."
                       ++ "\n"] }
    else
      match st.rng with
      | [] => none
      | rng :: rngs =>
        match playRound rng st.balance bet input1 out1 with
        | none => none
        | some r => afterRound st.playAgain rngs r
  | _ => none

/-- The game loop `while (balance > 0 && ...) { ... }`, for at most `fuel`
passes; it returns the state in which the condition failed. -/
def mainLoop : Nat → Session → Option Session
  | 0, _ => none
  | fuel + 1, st =>
    if loopCond st then
      match loopBody st with
      | none => none
      | some st1 => mainLoop fuel st1
    else some st

/-- The text printed before the game loop. -/
def banner : List String :=
  ["===================================" ++ "\n",
   "        BLACKJACK ENGINE           " ++ "\n",
   "===================================" ++ "\n"]

/-- The function `main`: `balance = 1000`, `playAgain = 'y'`, the game loop and
the final report. Every pass reads at least one input item, so
`input.length + 1` passes of fuel are enough. The result is the final balance
and everything written. -/
def main (input : List Token) (rng : List (List Card → List Card)) :
    Option (Int × List String) :=
  match mainLoop (input.length + 1) ⟨1000, 'y', input, rng, banner⟩ with
  | none => none
  | some st =>
    some (st.balance, st.out ++ ["\nFINAL BALANCE: $" ++ toString st.balance
      ++ "\nTerminating session..." ++ "\n"])

/-! ## Session states -/

/-- The states `main` can be in at the top of its game loop: `ReachableIn n st`
says that `st` is the state after `n` passes of the loop body, each entered
with the loop condition true, in a run that starts with `balance = 1000` and
`playAgain = 'y'`, on any input and with shuffles that reorder the deck. -/
inductive ReachableIn : Nat → Session → Prop
  | start (input : List Token) (rng : List (List Card → List Card))
      (hperm : ∀ f ∈ rng, ∀ l : List Card, (f l).Perm l) :
      ReachableIn 0 ⟨1000, 'y', input, rng, banner⟩
  | pass {n : Nat} {st st1 : Session} (h : ReachableIn n st)
      (hcond : loopCond st = true) (hbody : loopBody st = some st1) :
      ReachableIn (n + 1) st1

/-- A reordering of the deck that exchanges the cards at the positions 46, 47
with those at 48, 49; on the fresh deck it deals King and Queen of Spades to
the player and 9 and 8 of Spades to the dealer. -/
def winShuffle (l : List Card) : List Card :=
  l.take 46 ++ ((l.drop 48).take 2 ++ ((l.drop 46).take 2 ++ l.drop 50))

/-- The input of a player who, `n` times, bets the whole balance `b`, stands
at once and asks for another round, the balance doubling every time. -/
def allInInput : Nat → Int → List Token
  | 0, _ => []
  | n + 1, b => Token.num b :: Token.chr 's' :: Token.chr 'y' :: allInInput n (b + b)

/-! ## Theorems: cards and scoring -/

theorem getValue_eq_eleven_iff (c : Card) : c.getValue = 11 ↔ c.rank = Rank.ACE := by
  rcases c with ⟨r, s⟩
  cases r <;> simp [Card.getValue, Rank.toNat]

theorem getValue_ace (c : Card) (h : c.rank = Rank.ACE) : c.getValue = 11 :=
  (getValue_eq_eleven_iff c).2 h

theorem foldl_scoreStep (hand : List Card) (t : Int) (a : Nat) :
    hand.foldl scoreStep (t, a)
      = (t + lowTotal hand + 10 * (aceCount hand : Int), a + aceCount hand) := by
  induction hand generalizing t a with
  | nil => simp [lowTotal, aceCount]
  | cons c cs ih =>
    by_cases hc : c.rank = Rank.ACE
    · have hv : c.getValue = 11 := getValue_ace c hc
      simp only [List.foldl_cons, scoreStep, hv, ih, lowTotal, aceCount, hc, if_true]
      refine Prod.ext ?_ ?_
      · simp only; push_cast; ring
      · simp only; omega
    · have hv : c.getValue ≠ 11 := fun h => hc ((getValue_eq_eleven_iff c).1 h)
      simp only [List.foldl_cons, scoreStep, hv, ih, lowTotal, aceCount, hc, if_false]
      refine Prod.ext ?_ ?_
      · simp only; push_cast; ring
      · simp only; omega

theorem aceLoop_spec (fuel : Nat) (low : Int) (k : Nat) (hk : k ≤ fuel) :
    ∃ j, j ≤ k ∧ aceLoop fuel (low + 10 * (k : Int)) k = (low + 10 * (j : Int), j)
      ∧ (low + 10 * (j : Int) ≤ 21 ∨ j = 0)
      ∧ ∀ i : Nat, j < i → i ≤ k → 21 < low + 10 * (i : Int) := by
  induction fuel generalizing k with
  | zero =>
    have : k = 0 := by omega
    subst this
    exact ⟨0, le_refl _, rfl, Or.inr rfl, fun i h1 h2 => by omega⟩
  | succ n ih =>
    by_cases hc : low + 10 * (k : Int) > 21 ∧ k > 0
    · obtain ⟨j, hj, he, hs, hall⟩ := ih (k - 1) (by omega)
      have hcast : low + 10 * (k : Int) - 10 = low + 10 * ((k - 1 : Nat) : Int) := by
        have : ((k - 1 : Nat) : Int) = (k : Int) - 1 := by omega
        rw [this]; ring
      refine ⟨j, by omega, ?_, hs, ?_⟩
      · rw [aceLoop, if_pos hc, hcast, he]
      · intro i h1 h2
        by_cases hik : i = k
        · subst hik; exact hc.1
        · exact hall i h1 (by omega)
    · refine ⟨k, le_refl _, ?_, ?_, fun i h1 h2 => by omega⟩
      · rw [aceLoop, if_neg hc]
      · by_cases h0 : k = 0
        · exact Or.inr h0
        · left
          by_contra hlt
          exact hc ⟨by omega, by omega⟩

theorem mem_aceTotals (hand : List Card) (t : Int) :
    t ∈ aceTotals hand ↔ ∃ k : Nat, k ≤ aceCount hand ∧ t = lowTotal hand + 10 * (k : Int) := by
  induction hand generalizing t with
  | nil => simp [aceTotals, aceCount, lowTotal]
  | cons c cs ih =>
    by_cases hc : c.rank = Rank.ACE
    · simp only [aceTotals, hc, if_true, List.mem_append, List.mem_map, aceCount, lowTotal]
      constructor
      · rintro (⟨u, hu, rfl⟩ | ⟨u, hu, rfl⟩)
        · obtain ⟨k, hk, rfl⟩ := (ih u).1 hu
          exact ⟨k, by omega, by ring⟩
        · obtain ⟨k, hk, rfl⟩ := (ih u).1 hu
          exact ⟨k + 1, by omega, by push_cast; ring⟩
      · rintro ⟨k, hk, rfl⟩
        by_cases hle : k ≤ aceCount cs
        · exact Or.inl ⟨lowTotal cs + 10 * (k : Int), (ih _).2 ⟨k, hle, rfl⟩, by ring⟩
        · refine Or.inr ⟨lowTotal cs + 10 * ((k - 1 : Nat) : Int), (ih _).2 ⟨k - 1, by omega, rfl⟩, ?_⟩
          have : ((k - 1 : Nat) : Int) = (k : Int) - 1 := by omega
          rw [this]; ring
    · simp only [aceTotals, hc, if_false, List.mem_map, aceCount, lowTotal]
      constructor
      · rintro ⟨u, hu, rfl⟩
        obtain ⟨k, hk, rfl⟩ := (ih u).1 hu
        exact ⟨k, by omega, by ring⟩
      · rintro ⟨k, hk, rfl⟩
        exact ⟨lowTotal cs + 10 * (k : Int), (ih _).2 ⟨k, by omega, rfl⟩, by ring⟩

/-- The score of a hand in closed form: the all-Aces-low total plus ten for
each of the `j` Aces left at 11, where `j` is the largest count that keeps the
total at or below 21 (and `0` when none does). -/
theorem calculatePoints_spec (hand : List Card) :
    ∃ j, j ≤ aceCount hand ∧ calculatePoints hand = lowTotal hand + 10 * (j : Int)
      ∧ (calculatePoints hand ≤ 21 ∨ j = 0)
      ∧ ∀ i : Nat, j < i → i ≤ aceCount hand → 21 < lowTotal hand + 10 * (i : Int) := by
  obtain ⟨j, hj, he, hs, hall⟩ := aceLoop_spec (aceCount hand) (lowTotal hand) (aceCount hand) (le_refl _)
  have hcp : calculatePoints hand = lowTotal hand + 10 * (j : Int) := by
    simp only [calculatePoints, foldl_scoreStep, zero_add, he]
  exact ⟨j, hj, hcp, by rw [hcp]; exact hs, hall⟩

/-- C1: `calculatePoints` returns the best blackjack total of the hand. It is
one of the totals obtained by counting each Ace as 1 or 11; when some such
total is at most 21 it is the largest of those, and when none is it is the
smallest total, the one with every Ace counted as 1. -/
theorem calculatePoints_best (hand : List Card) :
    calculatePoints hand ∈ aceTotals hand
    ∧ ((∃ t ∈ aceTotals hand, t ≤ 21) →
        calculatePoints hand ≤ 21
        ∧ ∀ t ∈ aceTotals hand, t ≤ 21 → t ≤ calculatePoints hand)
    ∧ ((∀ t ∈ aceTotals hand, 21 < t) →
        calculatePoints hand = lowTotal hand
        ∧ ∀ t ∈ aceTotals hand, calculatePoints hand ≤ t) := by
  obtain ⟨j, hj, hcp, hs, hall⟩ := calculatePoints_spec hand
  have hmem : calculatePoints hand ∈ aceTotals hand := (mem_aceTotals hand _).2 ⟨j, hj, hcp⟩
  have hmax : ∀ t ∈ aceTotals hand, t ≤ 21 → t ≤ calculatePoints hand := by
    intro t ht ht21
    obtain ⟨k, hk, rfl⟩ := (mem_aceTotals hand t).1 ht
    by_cases hkj : k ≤ j
    · rw [hcp]
      have : (k : Int) ≤ (j : Int) := by exact_mod_cast hkj
      omega
    · have := hall k (by omega) hk
      omega
  refine ⟨hmem, ?_, ?_⟩
  · rintro ⟨t, ht, ht21⟩
    refine ⟨?_, hmax⟩
    rcases hs with h | h
    · exact h
    · obtain ⟨k, hk, rfl⟩ := (mem_aceTotals hand t).1 ht
      rw [hcp, h]
      have : (0 : Int) ≤ (k : Int) := Int.natCast_nonneg k
      push_cast
      omega
  · intro hall21
    have hj0 : j = 0 := by
      rcases hs with h | h
      · have := hall21 _ hmem
        omega
      · exact h
    have hlow : calculatePoints hand = lowTotal hand := by rw [hcp, hj0]; simp
    refine ⟨hlow, ?_⟩
    intro t ht
    obtain ⟨k, hk, rfl⟩ := (mem_aceTotals hand t).1 ht
    rw [hlow]
    have : (0 : Int) ≤ (k : Int) := Int.natCast_nonneg k
    omega

/-- C2: the worked scores of the specification, whatever the suits:
`[King, 7] = 17`, `[5, 6, 9] = 20`, `[Ace, 6] = 17`, `[Ace, 9] = 20`,
`[Ace, 9, 5] = 15` and `[Ace, Ace, 9] = 21`. -/
theorem calculatePoints_worked_values (s1 s2 s3 : Suit) :
    calculatePoints [⟨Rank.KING, s1⟩, ⟨Rank.SEVEN, s2⟩] = 17
    ∧ calculatePoints [⟨Rank.FIVE, s1⟩, ⟨Rank.SIX, s2⟩, ⟨Rank.NINE, s3⟩] = 20
    ∧ calculatePoints [⟨Rank.ACE, s1⟩, ⟨Rank.SIX, s2⟩] = 17
    ∧ calculatePoints [⟨Rank.ACE, s1⟩, ⟨Rank.NINE, s2⟩] = 20
    ∧ calculatePoints [⟨Rank.ACE, s1⟩, ⟨Rank.NINE, s2⟩, ⟨Rank.FIVE, s3⟩] = 15
    ∧ calculatePoints [⟨Rank.ACE, s1⟩, ⟨Rank.ACE, s2⟩, ⟨Rank.NINE, s3⟩] = 21
    ∧ calculatePoints [⟨Rank.ACE, s1⟩, ⟨Rank.ACE, s2⟩, ⟨Rank.NINE, s3⟩] ≠ 11
    ∧ calculatePoints [⟨Rank.ACE, s1⟩, ⟨Rank.ACE, s2⟩, ⟨Rank.NINE, s3⟩] ≠ 31 := by
  have h21 : calculatePoints [⟨Rank.ACE, s1⟩, ⟨Rank.ACE, s2⟩, ⟨Rank.NINE, s3⟩] = 21 := rfl
  refine ⟨rfl, rfl, rfl, rfl, rfl, h21, ?_, ?_⟩
  · rw [h21]; decide
  · rw [h21]; decide

/-- C7: `Card(rank, suit).getValue()` is 11 for the Ace, the rank's own number
for the ranks 2 to 10 and 10 for Jack, Queen and King; it is the same for every
suit, and `getRank` and `getSuit` return the constructor's arguments. -/
theorem card_getValue_table (r : Rank) (s : Suit) :
    (Card.mk r s).getValue
      = (match r with
        | .ACE => 11 | .TWO => 2 | .THREE => 3 | .FOUR => 4 | .FIVE => 5
        | .SIX => 6 | .SEVEN => 7 | .EIGHT => 8 | .NINE => 9 | .TEN => 10
        | .JACK => 10 | .QUEEN => 10 | .KING => 10)
    ∧ (∀ s2 : Suit, (Card.mk r s2).getValue = (Card.mk r s).getValue)
    ∧ (Card.mk r s).getRank = r
    ∧ (Card.mk r s).getSuit = s := by
  refine ⟨?_, fun _ => rfl, rfl, rfl⟩
  cases r <;> rfl

/-! ## Theorems: the deck -/

/-- C8: a freshly constructed deck holds exactly 52 cards, every pair of a rank
and a suit exactly once, in the order Hearts, Diamonds, Clubs, Spades with the
ranks Ace to King ascending within each suit. -/
theorem deck_new_complete :
    Deck.new.cards.length = 52
    ∧ Deck.new.cards.Nodup
    ∧ (∀ (r : Rank) (s : Suit), Deck.new.cards.count ⟨r, s⟩ = 1)
    ∧ Deck.new.cards
        = List.flatten ([Suit.HEARTS, Suit.DIAMONDS, Suit.CLUBS, Suit.SPADES].map (fun s =>
            [Rank.ACE, Rank.TWO, Rank.THREE, Rank.FOUR, Rank.FIVE, Rank.SIX, Rank.SEVEN,
             Rank.EIGHT, Rank.NINE, Rank.TEN, Rank.JACK, Rank.QUEEN, Rank.KING].map
              (fun r => Card.mk r s))) := by
  refine ⟨rfl, by decide, ?_, rfl⟩
  intro r s
  cases r <;> cases s <;> rfl

theorem drawCard_eq_of_ne_nil (d : Deck) (h : d.cards ≠ []) :
    d.drawCard = some (d.cards.getLast h, ⟨d.cards.dropLast⟩) := by
  simp only [Deck.drawCard, List.getLast?_eq_getLast _ h]

theorem drawCard_append_singleton (cs : List Card) (c : Card) :
    Deck.drawCard ⟨cs ++ [c]⟩ = some (c, ⟨cs⟩) := by
  simp [Deck.drawCard]

theorem drawCard_nil : Deck.drawCard ⟨[]⟩ = none := rfl

theorem drawCard_some (d d1 : Deck) (c : Card) (h : d.drawCard = some (c, d1)) :
    d.cards = d1.cards ++ [c] := by
  rcases d with ⟨cs⟩
  rcases List.eq_nil_or_concat cs with h0 | ⟨l, b, rfl⟩
  · subst h0; simp [Deck.drawCard] at h
  · rw [List.concat_eq_append, drawCard_append_singleton] at h
    cases h
    simp

theorem drawMany_some (n : Nat) (d d1 : Deck) (cs : List Card)
    (h : d.drawMany n = some (cs, d1)) :
    d1.cards ++ cs.reverse = d.cards ∧ cs.length = n := by
  induction n generalizing d cs with
  | zero =>
    simp only [Deck.drawMany, Option.some.injEq, Prod.mk.injEq] at h
    obtain ⟨rfl, rfl⟩ := h
    simp
  | succ n ih =>
    simp only [Deck.drawMany] at h
    cases hd : d.drawCard with
    | none => simp [hd] at h
    | some p =>
      obtain ⟨c, d2⟩ := p
      simp only [hd] at h
      cases hm : Deck.drawMany n d2 with
      | none => simp [hm] at h
      | some q =>
        obtain ⟨cs2, d3⟩ := q
        simp only [hm, Option.some.injEq, Prod.mk.injEq] at h
        obtain ⟨rfl, rfl⟩ := h
        obtain ⟨h1, h2⟩ := ih d2 cs2 hm
        have h3 := drawCard_some d d2 c hd
        refine ⟨?_, by simp [h2]⟩
        rw [h3, ← h1]
        simp

theorem drawMany_isSome (n : Nat) (d : Deck) (h : n ≤ d.cards.length) :
    ∃ cs d1, d.drawMany n = some (cs, d1) := by
  induction n generalizing d with
  | zero => exact ⟨[], d, rfl⟩
  | succ n ih =>
    rcases d with ⟨cs⟩
    rcases List.eq_nil_or_concat cs with h0 | ⟨l, b, rfl⟩
    · subst h0; simp at h
    · rw [List.concat_eq_append] at h ⊢
      have hl : n ≤ (Deck.mk l).cards.length := by
        simp only [List.length_append, List.length_singleton] at h
        simpa using Nat.le_of_succ_le_succ h
      obtain ⟨cs2, d2, h2⟩ := ih ⟨l⟩ hl
      refine ⟨b :: cs2, d2, ?_⟩
      simp only [Deck.drawMany, drawCard_append_singleton, h2]

/-- C9: on a non-empty deck `drawCard` returns the last card and leaves the
deck without it, one card shorter and otherwise unchanged; any number of
successive draws up to the deck's size succeeds, and from a duplicate-free
deck the cards returned are pairwise distinct and none of them is left in the
deck, so none is ever returned again. -/
theorem drawCard_removes_last (d : Deck) :
    (∀ h : d.cards ≠ [],
      d.drawCard = some (d.cards.getLast h, ⟨d.cards.dropLast⟩)
      ∧ d.cards.dropLast.length + 1 = d.cards.length
      ∧ d.cards.dropLast ++ [d.cards.getLast h] = d.cards)
    ∧ (∀ n, n ≤ d.cards.length →
        ∃ cs d1, d.drawMany n = some (cs, d1)
          ∧ d1.cards ++ cs.reverse = d.cards
          ∧ d1.cards.length + n = d.cards.length
          ∧ (d.cards.Nodup → cs.Nodup ∧ ∀ c ∈ cs, c ∉ d1.cards)) := by
  constructor
  · intro h
    refine ⟨drawCard_eq_of_ne_nil d h, ?_, List.dropLast_append_getLast h⟩
    have := congrArg List.length (List.dropLast_append_getLast h)
    simpa using this
  · intro n hn
    obtain ⟨cs, d1, h1⟩ := drawMany_isSome n d hn
    obtain ⟨h2, h3⟩ := drawMany_some n d d1 cs h1
    refine ⟨cs, d1, h1, h2, ?_, ?_⟩
    · have := congrArg List.length h2
      simp only [List.length_append, List.length_reverse] at this
      omega
    · intro hnd
      rw [← h2, List.nodup_append] at hnd
      obtain ⟨_, hr, hdis⟩ := hnd
      refine ⟨List.nodup_reverse.1 hr, ?_⟩
      intro c hc hc1
      exact hdis hc1 (List.mem_reverse.2 hc)

/-! ## Theorems: rendering -/

theorem handRow_cons (c : Card) (t : List Card) (piece : Nat → Card → String) :
    handRow (c :: t) piece
      = String.join (piece 0 c :: (List.enumFrom 1 t).map (fun ic => piece ic.1 ic.2)) := by
  simp [handRow, List.enum]

theorem drawHand_hidden_cons (c1 c2 : Card) (t : List Card) (owner : String) :
    drawHand (c1 :: t) owner true = drawHand (c2 :: t) owner true := by
  simp only [drawHand, handRow_cons, and_self, if_true]

/-- C10: with `hideFirst = true` the text `drawHand` writes, card boxes and log
line alike, is the same for any two non-empty hands that agree everywhere but
in their first card. -/
theorem drawHand_hides_first (owner : String) (h1 h2 : List Card)
    (hne1 : h1 ≠ []) (hne2 : h2 ≠ []) (htail : h1.tail = h2.tail) :
    drawHand h1 owner true = drawHand h2 owner true := by
  cases h1 with
  | nil => exact absurd rfl hne1
  | cons c1 t1 =>
    cases h2 with
    | nil => exact absurd rfl hne2
    | cons c2 t2 =>
      simp only [List.tail_cons] at htail
      subst htail
      exact drawHand_hidden_cons c1 c2 t1 owner

/-! ## Theorems: the dealer's loop -/

theorem lowTotal_ge_length (hand : List Card) : (hand.length : Int) ≤ lowTotal hand := by
  induction hand with
  | nil => simp [lowTotal]
  | cons c cs ih =>
    have hc : (1 : Int) ≤ (if c.rank = Rank.ACE then 1 else c.getValue) := by
      rcases c with ⟨r, s⟩
      cases r <;> simp [Card.getValue, Rank.toNat]
    simp only [lowTotal, List.length_cons]
    push_cast
    omega

theorem calculatePoints_ge_length (hand : List Card) :
    (hand.length : Int) ≤ calculatePoints hand := by
  obtain ⟨j, _, hcp, _, _⟩ := calculatePoints_spec hand
  have h1 := lowTotal_ge_length hand
  have h2 : (0 : Int) ≤ (j : Int) := Int.natCast_nonneg j
  omega

/-- The dealer's loop on a deck whose top cards are `ds`, the first of them
on top: when the hand reaches 17 exactly after `ds`, the loop draws `ds`. -/
theorem dealerLoop_run (ds rest hand : List Card) (fuel : Nat)
    (hlow : ∀ j, j < ds.length → calculatePoints (hand ++ ds.take j) < 17)
    (hhigh : 17 ≤ calculatePoints (hand ++ ds))
    (hfuel : ds.length + 1 ≤ fuel) :
    dealerLoop fuel ⟨rest ++ ds.reverse⟩ hand = some (⟨rest⟩, hand ++ ds) := by
  induction ds generalizing hand fuel with
  | nil =>
    obtain ⟨f, rfl⟩ : ∃ f, fuel = f + 1 := ⟨fuel - 1, by simp at hfuel; omega⟩
    simp only [List.append_nil] at hhigh
    simp only [dealerLoop, List.reverse_nil, List.append_nil]
    rw [if_neg (by omega)]
  | cons c ds ih =>
    obtain ⟨f, rfl⟩ : ∃ f, fuel = f + 1 := ⟨fuel - 1, by simp at hfuel; omega⟩
    have h0 : calculatePoints hand < 17 := by
      have := hlow 0 (by simp)
      simpa using this
    have hdeck : rest ++ (c :: ds).reverse = (rest ++ ds.reverse) ++ [c] := by simp
    simp only [dealerLoop]
    rw [if_pos h0, hdeck, drawCard_append_singleton]
    have := ih (hand ++ [c]) f
      (by
        intro j hj
        have := hlow (j + 1) (by simp; omega)
        simpa using this)
      (by simpa using hhigh)
      (by simp at hfuel; omega)
    simpa using this

theorem dealerLoop_some (fuel : Nat) (deck d1 : Deck) (hand h1 : List Card)
    (h : dealerLoop fuel deck hand = some (d1, h1)) :
    ∃ ds, deck.cards = d1.cards ++ ds.reverse ∧ h1 = hand ++ ds
      ∧ 17 ≤ calculatePoints (hand ++ ds)
      ∧ ∀ j, j < ds.length → calculatePoints (hand ++ ds.take j) < 17 := by
  induction fuel generalizing deck hand with
  | zero => simp [dealerLoop] at h
  | succ f ih =>
    simp only [dealerLoop] at h
    by_cases hc : calculatePoints hand < 17
    · rw [if_pos hc] at h
      cases hd : deck.drawCard with
      | none => simp [hd] at h
      | some p =>
        obtain ⟨c, d2⟩ := p
        simp only [hd] at h
        obtain ⟨ds, hdeck, hh, hhigh, hlow⟩ := ih d2 (hand ++ [c]) h
        refine ⟨c :: ds, ?_, by simpa using hh, by simpa using hhigh, ?_⟩
        · rw [drawCard_some deck d2 c hd, hdeck]; simp
        · intro j hj
          cases j with
          | zero => simpa using hc
          | succ j =>
            have := hlow j (by simp at hj; omega)
            simpa using this
    · rw [if_neg hc] at h
      simp only [Option.some.injEq, Prod.mk.injEq] at h
      obtain ⟨rfl, rfl⟩ := h
      exact ⟨[], by simp, by simp, by simpa using hc, by simp⟩

theorem dealerTurn_unfold (deck : Deck) (hand : List Card) :
    dealerTurn deck hand
      = if calculatePoints hand < 17 then
          match deck.drawCard with
          | none => none
          | some (card, deck1) => dealerTurn deck1 (hand ++ [card])
        else some (deck, hand) := by
  show dealerLoop (deck.cards.length + 1) deck hand = _
  rw [dealerLoop]
  by_cases hc : calculatePoints hand < 17
  · simp only [if_pos hc]
    cases hd : deck.drawCard with
    | none => rfl
    | some p =>
      obtain ⟨c, d2⟩ := p
      have hlen : deck.cards.length = d2.cards.length + 1 := by
        rw [drawCard_some deck d2 c hd]; simp
      simp only [dealerTurn, hlen]
  · simp only [if_neg hc]

theorem dealerTurn_iff (deck d1 : Deck) (hand h1 : List Card) :
    dealerTurn deck hand = some (d1, h1) ↔
      ∃ k, k ≤ deck.cards.length
        ∧ 17 ≤ calculatePoints (hand ++ deck.cards.reverse.take k)
        ∧ (∀ j, j < k → calculatePoints (hand ++ deck.cards.reverse.take j) < 17)
        ∧ h1 = hand ++ deck.cards.reverse.take k
        ∧ d1.cards ++ (deck.cards.reverse.take k).reverse = deck.cards := by
  constructor
  · intro h
    obtain ⟨ds, hdeck, hh, hhigh, hlow⟩ := dealerLoop_some _ deck d1 hand h1 h
    have hrev : deck.cards.reverse = ds ++ d1.cards.reverse := by rw [hdeck]; simp
    have htake : deck.cards.reverse.take ds.length = ds := by rw [hrev]; simp
    refine ⟨ds.length, by rw [hdeck]; simp, by rw [htake]; exact hhigh, ?_,
      by rw [htake]; exact hh, by rw [htake]; exact hdeck.symm⟩
    intro j hj
    have : deck.cards.reverse.take j = ds.take j := by
      rw [hrev, List.take_append_of_le_length (by omega)]
    rw [this]
    exact hlow j hj
  · rintro ⟨k, hk, hhigh, hlow, hh, hdeck⟩
    have hlen : (deck.cards.reverse.take k).length = k := by simp; omega
    have hrun := dealerLoop_run (deck.cards.reverse.take k) d1.cards hand
      (deck.cards.length + 1)
      (by
        intro j hj
        rw [hlen] at hj
        have := hlow j hj
        rwa [List.take_take, Nat.min_eq_left (by omega)])
      hhigh (by rw [hlen]; omega)
    rw [hdeck] at hrun
    rw [hh]
    exact hrun

/-- C6: the dealer's loop draws exactly while the dealer's total is below 17.
Each test of the condition draws at most one card; the loop ends with the
hand `h1` and the deck `d1` exactly when `h1` is the initial hand followed by
the shortest run of next deck cards that brings the total to 17 or more, those
cards being gone from the deck; a total of 17 or more draws nothing, a total
of 16 draws at least one card; and with a two-card hand and at least 15 cards
in the deck the loop does end. -/
theorem dealerTurn_shortest_run (deck : Deck) (hand : List Card) :
    (dealerTurn deck hand
      = if calculatePoints hand < 17 then
          match deck.drawCard with
          | none => none
          | some (card, deck1) => dealerTurn deck1 (hand ++ [card])
        else some (deck, hand))
    ∧ (∀ d1 h1, dealerTurn deck hand = some (d1, h1) ↔
        ∃ k, k ≤ deck.cards.length
          ∧ 17 ≤ calculatePoints (hand ++ deck.cards.reverse.take k)
          ∧ (∀ j, j < k → calculatePoints (hand ++ deck.cards.reverse.take j) < 17)
          ∧ h1 = hand ++ deck.cards.reverse.take k
          ∧ d1.cards ++ (deck.cards.reverse.take k).reverse = deck.cards)
    ∧ (17 ≤ calculatePoints hand → dealerTurn deck hand = some (deck, hand))
    ∧ (calculatePoints hand = 16 →
        ∀ d1 h1, dealerTurn deck hand = some (d1, h1) → hand.length + 1 ≤ h1.length)
    ∧ (hand.length = 2 → 15 ≤ deck.cards.length →
        ∃ d1 h1, dealerTurn deck hand = some (d1, h1) ∧ 17 ≤ calculatePoints h1
          ∧ h1.length ≤ 17) := by
  refine ⟨dealerTurn_unfold deck hand, fun d1 h1 => dealerTurn_iff deck d1 hand h1, ?_, ?_, ?_⟩
  · intro h
    rw [dealerTurn_unfold, if_neg (by omega)]
  · intro h16 d1 h1 h
    obtain ⟨k, hk, hhigh, hlow, hh, hdeck⟩ := (dealerTurn_iff deck d1 hand h1).1 h
    have hk0 : k ≠ 0 := by
      rintro rfl
      simp only [List.take_zero, List.append_nil] at hhigh
      omega
    rw [hh, List.length_append, List.length_take, List.length_reverse]
    omega
  · intro h2 h15
    have hex : ∃ k, k ≤ deck.cards.length
        ∧ 17 ≤ calculatePoints (hand ++ deck.cards.reverse.take k) := by
      refine ⟨15, h15, ?_⟩
      have := calculatePoints_ge_length (hand ++ deck.cards.reverse.take 15)
      have hl : (hand ++ deck.cards.reverse.take 15).length = 17 := by
        simp only [List.length_append, List.length_take, List.length_reverse]
        omega
      rw [hl] at this
      exact_mod_cast this
    classical
    obtain ⟨hk, hhigh⟩ := Nat.find_spec hex
    have hk15 : Nat.find hex ≤ 15 := Nat.find_min' hex ⟨h15, by
      have := calculatePoints_ge_length (hand ++ deck.cards.reverse.take 15)
      have hl : (hand ++ deck.cards.reverse.take 15).length = 17 := by
        simp only [List.length_append, List.length_take, List.length_reverse]
        omega
      rw [hl] at this
      exact_mod_cast this⟩
    refine ⟨⟨deck.cards.take (deck.cards.length - Nat.find hex)⟩,
      hand ++ deck.cards.reverse.take (Nat.find hex), ?_, hhigh, ?_⟩
    · refine (dealerTurn_iff deck _ hand _).2 ⟨Nat.find hex, hk, hhigh, ?_, rfl, ?_⟩
      · intro j hj
        have := Nat.find_min hex hj
        by_contra hc
        exact this ⟨by omega, by omega⟩
      · simp only
        have : (deck.cards.reverse.take (Nat.find hex)).reverse
            = deck.cards.drop (deck.cards.length - Nat.find hex) := by
          rw [List.reverse_take, List.reverse_reverse, List.length_reverse]
        rw [this, List.take_append_drop]
    · simp only [List.length_append, List.length_take, List.length_reverse]
      omega

/-! ## Theorems: the round -/

theorem deal_append_four (l : List Card) (a b c d : Card) :
    deal ⟨l ++ [a, b, c, d]⟩ = some (⟨l⟩, [d, c], [b, a]) := by
  have h1 : l ++ [a, b, c, d] = (l ++ [a, b, c]) ++ [d] := by simp
  have h2 : l ++ [a, b, c] = (l ++ [a, b]) ++ [c] := by simp
  have h3 : l ++ [a, b] = (l ++ [a]) ++ [b] := by simp
  simp only [deal]
  rw [h1, drawCard_append_singleton]
  simp only
  rw [h2, drawCard_append_singleton]
  simp only
  rw [h3, drawCard_append_singleton]
  simp only
  rw [drawCard_append_singleton]

theorem exists_append_four (l : List Card) (h : 4 ≤ l.length) :
    ∃ l0 a b c d, l = l0 ++ [a, b, c, d] := by
  have hl : l = l.reverse.reverse := by simp
  rcases hr : l.reverse with _ | ⟨d, _ | ⟨c, _ | ⟨b, _ | ⟨a, t⟩⟩⟩⟩
  all_goals
    have hlen := congrArg List.length hr
    simp only [List.length_reverse, List.length_nil, List.length_cons] at hlen
  · omega
  · omega
  · omega
  · omega
  · exact ⟨t.reverse, a, b, c, d, by rw [hl, hr]; simp⟩

theorem deal_some (d deck0 : Deck) (ph dh : List Card) (h : deal d = some (deck0, ph, dh)) :
    ∃ p1 p2 q1 q2, ph = [p1, p2] ∧ dh = [q1, q2]
      ∧ d.cards = deck0.cards ++ [q2, q1, p2, p1] := by
  by_cases hlen : 4 ≤ d.cards.length
  · obtain ⟨l0, a, b, c, e, hl⟩ := exists_append_four d.cards hlen
    have hd : d = ⟨l0 ++ [a, b, c, e]⟩ := by rcases d with ⟨cs⟩; simp at hl; rw [hl]
    rw [hd, deal_append_four] at h
    simp only [Option.some.injEq, Prod.mk.injEq] at h
    obtain ⟨rfl, rfl, rfl⟩ := h
    exact ⟨e, c, b, a, rfl, rfl, hl⟩
  · exfalso
    simp only [deal] at h
    cases h1 : d.drawCard with
    | none => simp [h1] at h
    | some x1 =>
      obtain ⟨c1, d1⟩ := x1
      simp only [h1] at h
      cases h2 : d1.drawCard with
      | none => simp [h2] at h
      | some x2 =>
        obtain ⟨c2, d2⟩ := x2
        simp only [h2] at h
        cases h3 : d2.drawCard with
        | none => simp [h3] at h
        | some x3 =>
          obtain ⟨c3, d3⟩ := x3
          simp only [h3] at h
          cases h4 : d3.drawCard with
          | none => simp [h4] at h
          | some x4 =>
            obtain ⟨c4, d4⟩ := x4
            have e1 := congrArg List.length (drawCard_some _ _ _ h1)
            have e2 := congrArg List.length (drawCard_some _ _ _ h2)
            have e3 := congrArg List.length (drawCard_some _ _ _ h3)
            have e4 := congrArg List.length (drawCard_some _ _ _ h4)
            simp only [List.length_append, List.length_singleton] at e1 e2 e3 e4
            omega

/-- The text one pass of the player's loop writes before it tests the total. -/
theorem playerLoop_unfold (dealerHand : List Card) (input : List Token) (deck : Deck)
    (playerHand : List Card) (out : List String) :
    playerLoop dealerHand input deck playerHand out
      = if calculatePoints playerHand ≥ 21 then
          some ⟨input, deck, playerHand,
            out ++ [drawHand dealerHand "DEALER HAND" true,
              drawHand playerHand "PLAYER HAND" false,
              "\nYOUR TOTAL: " ++ toString (calculatePoints playerHand) ++ "\n"]⟩
        else
          match input with
          | Token.chr choice :: rest =>
            if choice = 'h' then
              match deck.drawCard with
              | none => none
              | some (card, deck1) =>
                playerLoop dealerHand rest deck1 (playerHand ++ [card])
                  (out ++ [drawHand dealerHand "DEALER HAND" true,
                    drawHand playerHand "PLAYER HAND" false,
                    "\nYOUR TOTAL: " ++ toString (calculatePoints playerHand) ++ "\n"]
                    ++ ["ACTION: [h] Hit | [s] Stand: "])
            else
              some ⟨rest, deck, playerHand,
                out ++ [drawHand dealerHand "DEALER HAND" true,
                  drawHand playerHand "PLAYER HAND" false,
                  "\nYOUR TOTAL: " ++ toString (calculatePoints playerHand) ++ "\n"]
                  ++ ["ACTION: [h] Hit | [s] Stand: "]⟩
          | Token.num _ :: _ => none
          | [] => none := by
  cases input with
  | nil => rfl
  | cons tok rest => cases tok <;> rfl

theorem playerLoop_some (dealerHand : List Card) (input : List Token) (deck : Deck)
    (playerHand : List Card) (out : List String) (pt : PlayerTurn)
    (h : playerLoop dealerHand input deck playerHand out = some pt) :
    ∃ hits, pt.playerHand = playerHand ++ hits
      ∧ deck.cards = pt.deck.cards ++ hits.reverse
      ∧ input.length = pt.input.length + hits.length
          + (if calculatePoints pt.playerHand ≥ 21 then 0 else 1) := by
  induction input generalizing deck playerHand out with
  | nil =>
    rw [playerLoop_unfold] at h
    by_cases hp : calculatePoints playerHand ≥ 21
    · simp only [if_pos hp, Option.some.injEq] at h
      subst h
      exact ⟨[], by simp, by simp, by simp [hp]⟩
    · simp [if_neg hp] at h
  | cons tok rest ih =>
    rw [playerLoop_unfold] at h
    by_cases hp : calculatePoints playerHand ≥ 21
    · simp only [if_pos hp, Option.some.injEq] at h
      subst h
      exact ⟨[], by simp, by simp, by simp [hp]⟩
    · simp only [if_neg hp] at h
      cases tok with
      | num n => simp at h
      | chr choice =>
        simp only at h
        by_cases hc : choice = 'h'
        · simp only [if_pos hc] at h
          cases hd : deck.drawCard with
          | none => simp [hd] at h
          | some x =>
            obtain ⟨card, deck1⟩ := x
            simp only [hd] at h
            obtain ⟨hits, h1, h2, h3⟩ := ih _ _ _ h
            refine ⟨card :: hits, by simpa using h1, ?_, ?_⟩
            · rw [drawCard_some deck deck1 card hd, h2]; simp
            · simp only [List.length_cons] at h3 ⊢
              omega
        · simp only [if_neg hc, Option.some.injEq] at h
          subst h
          exact ⟨[], by simp, by simp, by simp [hp]⟩

theorem playRound_some (rng : List Card → List Card) (balance bet : Int)
    (input : List Token) (out : List String) (r : Round)
    (h : playRound rng balance bet input out = some r) :
    ∃ deck0 ph0 dh0 pt, deal (Deck.new.shuffleDeck rng) = some (deck0, ph0, dh0)
      ∧ playerLoop dh0 input deck0 ph0 out = some pt
      ∧ evaluate balance bet pt dh0 = some r := by
  simp only [playRound] at h
  cases hd : deal (Deck.new.shuffleDeck rng) with
  | none => simp [hd] at h
  | some x =>
    obtain ⟨deck0, ph0, dh0⟩ := x
    simp only [hd] at h
    cases hp : playerLoop dh0 input deck0 ph0 out with
    | none => simp [hp] at h
    | some pt =>
      simp only [hp] at h
      exact ⟨deck0, ph0, dh0, pt, rfl, hp, h⟩

theorem evaluate_bust (balance bet : Int) (pt : PlayerTurn) (dealerHand : List Card)
    (hb : 21 < calculatePoints pt.playerHand) :
    evaluate balance bet pt dealerHand
      = some ⟨balance - bet, pt.input, pt.deck, pt.playerHand, dealerHand,
          pt.out ++ ["\nBUST! Player went over 21. Balance -$" ++ toString bet ++ "\n"]⟩ := by
  simp only [evaluate]
  rw [if_pos (by omega)]

theorem evaluate_not_bust (balance bet : Int) (pt : PlayerTurn) (dealerHand : List Card)
    (r : Round) (hb : calculatePoints pt.playerHand ≤ 21)
    (h : evaluate balance bet pt dealerHand = some r) :
    dealerTurn pt.deck dealerHand = some (r.deck, r.dealerHand)
      ∧ r.playerHand = pt.playerHand
      ∧ r.input = pt.input
      ∧ r.balance
          = (settle balance bet (calculatePoints pt.playerHand)
              (calculatePoints r.dealerHand)).1 := by
  simp only [evaluate] at h
  rw [if_neg (by omega)] at h
  cases hd : dealerTurn pt.deck dealerHand with
  | none => simp [hd] at h
  | some x =>
    obtain ⟨deck1, dh1⟩ := x
    simp only [hd, Option.some.injEq] at h
    subst h
    exact ⟨rfl, rfl, rfl, rfl⟩

theorem addInt32_exact (a b : Int) (h : inIntRange (a + b)) : addInt32 a b = a + b := by
  simp only [inIntRange, INT_MIN, INT_MAX] at h
  simp only [addInt32, wrapInt32]
  omega

/-- C3 as amended: with a player total of at most 21 the comparison of the
final totals changes the balance as the outcome table says: when the dealer is
over 21 or the player's total is higher the balance becomes `balance + bet`,
provided that sum is in the 32-bit `int` range; it becomes `balance - bet`
when the dealer is at most 21 and higher than the player, and stays the same
on equal totals; and the balance a round ends with is that of the table at
the totals of the round's final hands. -/
theorem settle_outcome_table (balance bet playerFinal dealerFinal : Int)
    (hp : playerFinal ≤ 21) :
    ((dealerFinal > 21 ∨ playerFinal > dealerFinal) →
        inIntRange (balance + bet) →
        (settle balance bet playerFinal dealerFinal).1 = balance + bet)
    ∧ ((dealerFinal ≤ 21 ∧ dealerFinal > playerFinal) →
        (settle balance bet playerFinal dealerFinal).1 = balance - bet)
    ∧ (dealerFinal = playerFinal →
        (settle balance bet playerFinal dealerFinal).1 = balance)
    ∧ (∀ rng input out r, playRound rng balance bet input out = some r →
        calculatePoints r.playerHand = playerFinal →
        calculatePoints r.dealerHand = dealerFinal →
        r.balance = (settle balance bet playerFinal dealerFinal).1) := by
  refine ⟨?_, ?_, ?_, ?_⟩
  · intro h hr
    simp only [settle, if_pos h]
    exact addInt32_exact balance bet hr
  · rintro ⟨h1, h2⟩
    have hn : ¬(dealerFinal > 21 ∨ playerFinal > dealerFinal) := by omega
    simp only [settle, if_neg hn, if_pos h2]
  · intro h
    have hn : ¬(dealerFinal > 21 ∨ playerFinal > dealerFinal) := by omega
    have hn2 : ¬(dealerFinal > playerFinal) := by omega
    simp only [settle, if_neg hn, if_neg hn2]
  · intro rng input out r h hpf hdf
    obtain ⟨deck0, ph0, dh0, pt, _, _, hev⟩ := playRound_some rng balance bet input out r h
    by_cases hb : 21 < calculatePoints pt.playerHand
    · rw [evaluate_bust balance bet pt dh0 hb] at hev
      simp only [Option.some.injEq] at hev
      subst hev
      simp only at hpf
      omega
    · obtain ⟨_, h2, _, h4⟩ := evaluate_not_bust balance bet pt dh0 r (by omega) hev
      rw [h4, ← h2, hpf, hdf]

/-- C4: a round in which the player's final total exceeds 21 is a bust: the
balance goes down by exactly the bet, the dealer's hand is still the two cards
of the initial deal, and the deck is the one the player's loop left, so the
shuffled deck is made up of the final deck, the player's hits and the four
dealt cards; and such a round does end once the deal and the player's loop
have ended. -/
theorem bust_round_dealer_never_plays (rng : List Card → List Card) (balance bet : Int)
    (input : List Token) (out : List String) :
    (∀ r, playRound rng balance bet input out = some r →
      21 < calculatePoints r.playerHand →
      r.balance = balance - bet
      ∧ ∃ deck0 p1 p2 q1 q2 pt,
          deal (Deck.new.shuffleDeck rng) = some (deck0, [p1, p2], [q1, q2])
          ∧ playerLoop [q1, q2] input deck0 [p1, p2] out = some pt
          ∧ r.dealerHand = [q1, q2]
          ∧ r.deck = pt.deck
          ∧ r.playerHand = pt.playerHand
          ∧ r.input = pt.input
          ∧ r.out = pt.out
              ++ ["\nBUST! Player went over 21. Balance -$" ++ toString bet ++ "\n"]
          ∧ rng Deck.new.cards
              = r.deck.cards ++ (r.playerHand.drop 2).reverse ++ [q2, q1, p2, p1])
    ∧ (∀ deck0 ph0 dh0 pt, deal (Deck.new.shuffleDeck rng) = some (deck0, ph0, dh0) →
        playerLoop dh0 input deck0 ph0 out = some pt →
        21 < calculatePoints pt.playerHand →
        playRound rng balance bet input out
          = some ⟨balance - bet, pt.input, pt.deck, pt.playerHand, dh0,
              pt.out ++ ["\nBUST! Player went over 21. Balance -$" ++ toString bet ++ "\n"]⟩) := by
  constructor
  · intro r h hb
    obtain ⟨deck0, ph0, dh0, pt, hdeal, hpl, hev⟩ := playRound_some rng balance bet input out r h
    obtain ⟨p1, p2, q1, q2, rfl, rfl, hcards⟩ := deal_some _ deck0 ph0 dh0 hdeal
    obtain ⟨hits, hh1, hh2, _⟩ := playerLoop_some _ _ _ _ _ pt hpl
    have hbust : 21 < calculatePoints pt.playerHand := by
      by_contra hnb
      obtain ⟨_, h2, _, _⟩ := evaluate_not_bust balance bet pt [q1, q2] r (by omega) hev
      rw [h2] at hb
      exact hnb hb
    rw [evaluate_bust balance bet pt [q1, q2] hbust] at hev
    simp only [Option.some.injEq] at hev
    subst hev
    refine ⟨rfl, deck0, p1, p2, q1, q2, pt, hdeal, hpl, rfl, rfl, rfl, rfl, rfl, ?_⟩
    have hc : (Deck.new.shuffleDeck rng).cards = rng Deck.new.cards := rfl
    rw [← hc, hcards, hh2]
    simp only [hh1]
    simp
  · intro deck0 ph0 dh0 pt hdeal hpl hb
    simp only [playRound, hdeal, hpl]
    exact evaluate_bust balance bet pt dh0 hb

theorem mainLoop_succ (fuel : Nat) (st : Session) :
    mainLoop (fuel + 1) st
      = if loopCond st then
          match loopBody st with
          | none => none
          | some st1 => mainLoop fuel st1
        else some st := rfl

/-! ## Concrete instances -/

/-- The soft hand Ace, Ace, 9 gets the largest total not above 21, and the
hard hand King, Queen, 5 gets its all-low total. -/
theorem calculatePoints_best_witness :
    calculatePoints [⟨Rank.ACE, Suit.HEARTS⟩, ⟨Rank.ACE, Suit.SPADES⟩, ⟨Rank.NINE, Suit.CLUBS⟩]
        ∈ aceTotals [⟨Rank.ACE, Suit.HEARTS⟩, ⟨Rank.ACE, Suit.SPADES⟩, ⟨Rank.NINE, Suit.CLUBS⟩]
    ∧ calculatePoints
        [⟨Rank.ACE, Suit.HEARTS⟩, ⟨Rank.ACE, Suit.SPADES⟩, ⟨Rank.NINE, Suit.CLUBS⟩] ≤ 21
    ∧ (11 : Int) ≤ calculatePoints
        [⟨Rank.ACE, Suit.HEARTS⟩, ⟨Rank.ACE, Suit.SPADES⟩, ⟨Rank.NINE, Suit.CLUBS⟩]
    ∧ calculatePoints
        [⟨Rank.KING, Suit.HEARTS⟩, ⟨Rank.QUEEN, Suit.SPADES⟩, ⟨Rank.FIVE, Suit.CLUBS⟩]
      = lowTotal
        [⟨Rank.KING, Suit.HEARTS⟩, ⟨Rank.QUEEN, Suit.SPADES⟩, ⟨Rank.FIVE, Suit.CLUBS⟩] :=
  ⟨(calculatePoints_best _).1,
   ((calculatePoints_best _).2.1 ⟨21, by decide, by decide⟩).1,
   ((calculatePoints_best _).2.1 ⟨21, by decide, by decide⟩).2 11 (by decide) (by decide),
   ((calculatePoints_best _).2.2 (by decide)).1⟩

/-- The table at 18 against 23, 20 against 20 and 18 against 20, and the round
on the unshuffled deck in which the player stands on 20 against a dealer's 20. -/
theorem settle_outcome_table_witness :
    (settle 1000 50 18 23).1 = 1000 + 50
    ∧ (settle 1000 50 20 20).1 = 1000
    ∧ (settle 1000 50 18 20).1 = 1000 - 50
    ∧ ∃ r, playRound id 1000 50 [Token.chr 's'] [] = some r
        ∧ calculatePoints r.playerHand = 20 ∧ calculatePoints r.dealerHand = 20
        ∧ r.balance = 1000 :=
  ⟨(settle_outcome_table 1000 50 18 23 (by decide)).1 (Or.inl (by decide))
      ⟨by decide, by decide⟩,
   (settle_outcome_table 1000 50 20 20 (by decide)).2.2.1 rfl,
   (settle_outcome_table 1000 50 18 20 (by decide)).2.1 ⟨by decide, by decide⟩,
   (playRound id 1000 50 [Token.chr 's'] []).get (by decide),
   (Option.some_get _).symm, by decide, by decide,
   ((settle_outcome_table 1000 50 20 20 (by decide)).2.2.2 id [Token.chr 's'] [] _
      (Option.some_get _).symm (by decide) (by decide)).trans
     ((settle_outcome_table 1000 50 20 20 (by decide)).2.2.1 rfl)⟩

/-- C3 fails: on the deck `winShuffle` deals from, a player with the balance
2097152000 who bets all of it and stands on 20 beats the dealer's 17, and the
balance after the round is -100663296, not the sum 4194304000. -/
theorem winning_update_wraps :
    ∃ r, playRound winShuffle 2097152000 2097152000 [Token.chr 's'] [] = some r
      ∧ calculatePoints r.playerHand = 20
      ∧ calculatePoints r.dealerHand = 17
      ∧ r.balance = -100663296
      ∧ r.balance ≠ 2097152000 + 2097152000 :=
  ⟨(playRound winShuffle 2097152000 2097152000 [Token.chr 's'] []).get (by decide),
   (Option.some_get _).symm, by decide, by decide, by decide, by decide⟩

/-- On the unshuffled deck the player holds King and Queen; a hit draws the 9
and busts, the bet is lost and the dealer keeps Jack and 10. -/
theorem bust_round_dealer_never_plays_witness :
    ∃ r, playRound id 1000 50 [Token.chr 'h'] [] = some r
      ∧ 21 < calculatePoints r.playerHand
      ∧ r.balance = 1000 - 50
      ∧ r.dealerHand = [⟨Rank.JACK, Suit.SPADES⟩, ⟨Rank.TEN, Suit.SPADES⟩]
      ∧ r.deck.cards.length = 47 :=
  ⟨(playRound id 1000 50 [Token.chr 'h'] []).get (by decide),
   (Option.some_get _).symm, by decide,
   ((bust_round_dealer_never_plays id 1000 50 [Token.chr 'h'] []).1 _
      (Option.some_get _).symm (by decide)).1,
   by decide, by decide⟩

/-- A dealer on 16 with a 5 on top of the deck draws exactly that card; a
dealer on 17 draws nothing; from the full deck a two-card hand always ends. -/
theorem dealerTurn_shortest_run_witness :
    dealerTurn ⟨[⟨Rank.TWO, Suit.CLUBS⟩, ⟨Rank.FIVE, Suit.DIAMONDS⟩]⟩
        [⟨Rank.TEN, Suit.HEARTS⟩, ⟨Rank.SIX, Suit.SPADES⟩]
      = some (⟨[⟨Rank.TWO, Suit.CLUBS⟩]⟩,
          [⟨Rank.TEN, Suit.HEARTS⟩, ⟨Rank.SIX, Suit.SPADES⟩, ⟨Rank.FIVE, Suit.DIAMONDS⟩])
    ∧ dealerTurn ⟨[⟨Rank.TWO, Suit.CLUBS⟩, ⟨Rank.FIVE, Suit.DIAMONDS⟩]⟩
        [⟨Rank.KING, Suit.HEARTS⟩, ⟨Rank.SEVEN, Suit.SPADES⟩]
      = some (⟨[⟨Rank.TWO, Suit.CLUBS⟩, ⟨Rank.FIVE, Suit.DIAMONDS⟩]⟩,
          [⟨Rank.KING, Suit.HEARTS⟩, ⟨Rank.SEVEN, Suit.SPADES⟩])
    ∧ ∃ d1 h1, dealerTurn Deck.new [⟨Rank.TWO, Suit.HEARTS⟩, ⟨Rank.THREE, Suit.SPADES⟩]
        = some (d1, h1) ∧ 17 ≤ calculatePoints h1 ∧ h1.length ≤ 17 :=
  ⟨((dealerTurn_shortest_run _ _).2.1 _ _).2
      ⟨1, by decide, by decide, by decide, rfl, rfl⟩,
   (dealerTurn_shortest_run _ _).2.2.1 (by decide),
   (dealerTurn_shortest_run Deck.new
      [⟨Rank.TWO, Suit.HEARTS⟩, ⟨Rank.THREE, Suit.SPADES⟩]).2.2.2.2 rfl (by decide)⟩

/-- Drawing from the deck Ace, 2 returns the 2 and leaves the Ace; 52 draws
from a fresh deck return 52 pairwise distinct cards. -/
theorem drawCard_removes_last_witness :
    Deck.drawCard ⟨[⟨Rank.ACE, Suit.HEARTS⟩, ⟨Rank.TWO, Suit.HEARTS⟩]⟩
      = some (⟨Rank.TWO, Suit.HEARTS⟩, ⟨[⟨Rank.ACE, Suit.HEARTS⟩]⟩)
    ∧ ∃ cs d1, Deck.new.drawMany 52 = some (cs, d1)
        ∧ d1.cards ++ cs.reverse = Deck.new.cards
        ∧ d1.cards.length + 52 = Deck.new.cards.length
        ∧ cs.Nodup :=
  ⟨((drawCard_removes_last
      ⟨[⟨Rank.ACE, Suit.HEARTS⟩, ⟨Rank.TWO, Suit.HEARTS⟩]⟩).1 (by decide)).1,
   match (drawCard_removes_last Deck.new).2 52 (by decide) with
   | ⟨cs, d1, h1, h2, h3, h4⟩ => ⟨cs, d1, h1, h2, h3, (h4 (by decide)).1⟩⟩

/-- A hidden Ace of Hearts and a hidden 2 of Clubs in front of the King of
Spades are rendered alike. -/
theorem drawHand_hides_first_witness :
    drawHand [⟨Rank.ACE, Suit.HEARTS⟩, ⟨Rank.KING, Suit.SPADES⟩] "DEALER HAND" true
      = drawHand [⟨Rank.TWO, Suit.CLUBS⟩, ⟨Rank.KING, Suit.SPADES⟩] "DEALER HAND" true :=
  drawHand_hides_first "DEALER HAND" _ _ (by decide) (by decide) rfl

/-! ## Theorems: more on scoring -/

theorem calculatePoints_eq_aceLoop (hand : List Card) :
    calculatePoints hand
      = (aceLoop (aceCount hand) (lowTotal hand + 10 * (aceCount hand : Int))
          (aceCount hand)).1 := by
  simp only [calculatePoints, foldl_scoreStep, zero_add]

theorem lowTotal_eq_sum (hand : List Card) :
    lowTotal hand
      = ((hand.map Card.rank).map
          (fun r => if r = Rank.ACE then (1 : Int) else (Card.mk r Suit.HEARTS).getValue)).sum := by
  induction hand with
  | nil => rfl
  | cons c cs ih =>
    simp only [lowTotal, List.map_cons, List.sum_cons, ih]
    rfl

theorem aceCount_eq_sum (hand : List Card) :
    aceCount hand
      = ((hand.map Card.rank).map (fun r => if r = Rank.ACE then 1 else 0)).sum := by
  induction hand with
  | nil => rfl
  | cons c cs ih => simp only [aceCount, List.map_cons, List.sum_cons, ih]

theorem calculatePoints_congr_ranks (h1 h2 : List Card)
    (h : (h1.map Card.rank).Perm (h2.map Card.rank)) :
    calculatePoints h1 = calculatePoints h2 := by
  have hl : lowTotal h1 = lowTotal h2 := by
    rw [lowTotal_eq_sum, lowTotal_eq_sum]
    exact (h.map _).sum_eq
  have ha : aceCount h1 = aceCount h2 := by
    rw [aceCount_eq_sum, aceCount_eq_sum]
    exact (h.map _).sum_eq
  rw [calculatePoints_eq_aceLoop, calculatePoints_eq_aceLoop, hl, ha]

/-- C18: the score of a hand depends neither on the order of the cards nor on
their suits: two hands that are permutations of each other score the same, and
so do two hands with the same ranks at the same positions; more generally the
score is determined by the ranks held, whatever their order. -/
theorem calculatePoints_order_suit_independent (h1 h2 : List Card) :
    (h1.Perm h2 → calculatePoints h1 = calculatePoints h2)
    ∧ (h1.map Card.rank = h2.map Card.rank → calculatePoints h1 = calculatePoints h2)
    ∧ ((h1.map Card.rank).Perm (h2.map Card.rank) →
        calculatePoints h1 = calculatePoints h2) := by
  refine ⟨fun h => calculatePoints_congr_ranks h1 h2 (h.map _), fun h => ?_,
    calculatePoints_congr_ranks h1 h2⟩
  exact calculatePoints_congr_ranks h1 h2 (by rw [h])

theorem lowTotal_append (a b : List Card) : lowTotal (a ++ b) = lowTotal a + lowTotal b := by
  induction a with
  | nil => simp [lowTotal]
  | cons c cs ih =>
    have : lowTotal (c :: cs ++ b)
        = (if c.rank = Rank.ACE then 1 else c.getValue) + lowTotal (cs ++ b) := rfl
    rw [this, ih]
    simp only [lowTotal]
    ring

theorem lowValue_le_ten (c : Card) : (if c.rank = Rank.ACE then 1 else c.getValue) ≤ 10 := by
  rcases c with ⟨r, s⟩
  cases r <;> simp [Card.getValue, Rank.toNat]

theorem lowTotal_singleton_le (c : Card) : lowTotal [c] ≤ 10 := by
  have := lowValue_le_ten c
  simp only [lowTotal]
  omega

theorem lowTotal_le_calculatePoints (hand : List Card) : lowTotal hand ≤ calculatePoints hand := by
  obtain ⟨j, _, hcp, _, _⟩ := calculatePoints_spec hand
  have h2 : (0 : Int) ≤ (j : Int) := Int.natCast_nonneg j
  omega

theorem calculatePoints_le_or_low (hand : List Card) :
    calculatePoints hand ≤ 21 ∨ calculatePoints hand = lowTotal hand := by
  obtain ⟨j, _, hcp, hs, _⟩ := calculatePoints_spec hand
  rcases hs with h | h
  · exact Or.inl h
  · right; rw [hcp, h]; simp

theorem calculatePoints_push_le (hand : List Card) (c : Card)
    (h : calculatePoints hand < 17) : calculatePoints (hand ++ [c]) ≤ 26 := by
  rcases calculatePoints_le_or_low (hand ++ [c]) with h1 | h1
  · omega
  · rw [h1, lowTotal_append]
    have := lowTotal_le_calculatePoints hand
    have := lowTotal_singleton_le c
    omega

theorem calculatePoints_two_le (hand : List Card) (h : hand.length = 2) :
    calculatePoints hand ≤ 21 := by
  rcases calculatePoints_le_or_low hand with h1 | h1
  · exact h1
  · match hand, h with
    | [a, b], _ =>
      rw [h1]
      have ha := lowTotal_singleton_le a
      have hb := lowTotal_singleton_le b
      have : lowTotal [a, b] = lowTotal [a] + lowTotal [b] := lowTotal_append [a] [b]
      omega

theorem dealerLoop_bounds (fuel : Nat) (deck d1 : Deck) (hand h1 : List Card)
    (h : dealerLoop fuel deck hand = some (d1, h1)) :
    17 ≤ calculatePoints h1 ∧ (calculatePoints h1 ≤ 26 ∨ h1 = hand) := by
  induction fuel generalizing deck hand with
  | zero => simp [dealerLoop] at h
  | succ f ih =>
    simp only [dealerLoop] at h
    by_cases hc : calculatePoints hand < 17
    · rw [if_pos hc] at h
      cases hd : deck.drawCard with
      | none => simp [hd] at h
      | some p =>
        obtain ⟨c, d2⟩ := p
        simp only [hd] at h
        obtain ⟨h17, h26⟩ := ih d2 (hand ++ [c]) h
        refine ⟨h17, Or.inl ?_⟩
        rcases h26 with h26 | h26
        · exact h26
        · rw [h26]; exact calculatePoints_push_le hand c hc
    · rw [if_neg hc] at h
      simp only [Option.some.injEq, Prod.mk.injEq] at h
      obtain ⟨rfl, rfl⟩ := h
      exact ⟨by omega, Or.inr rfl⟩

theorem dealerTurn_total (deck : Deck) (hand : List Card)
    (h17 : 17 ≤ hand.length + deck.cards.length) :
    ∃ d1 h1, dealerTurn deck hand = some (d1, h1) := by
  obtain ⟨n, hn⟩ : ∃ n, n = deck.cards.length := ⟨_, rfl⟩
  induction n generalizing deck hand with
  | zero =>
    rw [dealerTurn_unfold]
    have := calculatePoints_ge_length hand
    have hlen : (17 : Int) ≤ (hand.length : Int) := by omega
    rw [if_neg (by omega)]
    exact ⟨_, _, rfl⟩
  | succ n ih =>
    rw [dealerTurn_unfold]
    by_cases hc : calculatePoints hand < 17
    · rw [if_pos hc]
      rcases deck with ⟨cs⟩
      rcases List.eq_nil_or_concat cs with h0 | ⟨l, b, rfl⟩
      · subst h0; simp at hn
      · rw [List.concat_eq_append, drawCard_append_singleton]
        simp only [List.concat_eq_append, List.length_append, List.length_singleton] at hn h17
        exact ih ⟨l⟩ (hand ++ [b]) (by simp; omega) (by simp; omega)
    · rw [if_neg hc]
      exact ⟨_, _, rfl⟩

/-- C17: after the dealer's loop on a two-card hand the dealer's total is
between 17 and 26: the loop ends only at 17 or more, a two-card hand is at
most 21, and a card drawn on a total below 17 leaves at most 26. With at
least 15 cards in the deck the loop does end. -/
theorem dealer_final_score_bounds (deck : Deck) (hand : List Card) (hlen : hand.length = 2) :
    (∀ d1 h1, dealerTurn deck hand = some (d1, h1) →
      17 ≤ calculatePoints h1 ∧ calculatePoints h1 ≤ 26)
    ∧ (15 ≤ deck.cards.length →
        ∃ d1 h1, dealerTurn deck hand = some (d1, h1)
          ∧ 17 ≤ calculatePoints h1 ∧ calculatePoints h1 ≤ 26) := by
  have hmain : ∀ d1 h1, dealerTurn deck hand = some (d1, h1) →
      17 ≤ calculatePoints h1 ∧ calculatePoints h1 ≤ 26 := by
    intro d1 h1 h
    obtain ⟨h17, h26⟩ := dealerLoop_bounds _ deck d1 hand h1 h
    refine ⟨h17, ?_⟩
    rcases h26 with h26 | h26
    · exact h26
    · rw [h26]
      have := calculatePoints_two_le hand hlen
      omega
  refine ⟨hmain, fun h15 => ?_⟩
  obtain ⟨d1, h1, h⟩ := dealerTurn_total deck hand (by omega)
  exact ⟨d1, h1, h, hmain d1 h1 h⟩

/-! ## Theorems: the player's loop -/

theorem playerLoop_exit (dealerHand : List Card) (input : List Token) (deck : Deck)
    (playerHand : List Card) (out : List String) (hp : 21 ≤ calculatePoints playerHand) :
    playerLoop dealerHand input deck playerHand out
      = some ⟨input, deck, playerHand,
          out ++ [drawHand dealerHand "DEALER HAND" true,
            drawHand playerHand "PLAYER HAND" false,
            "\nYOUR TOTAL: " ++ toString (calculatePoints playerHand) ++ "\n"]⟩ := by
  rw [playerLoop_unfold, if_pos (by omega)]

theorem playerLoop_hit (dealerHand : List Card) (rest : List Token) (deck deck1 : Deck)
    (playerHand : List Card) (out : List String) (card : Card)
    (hp : calculatePoints playerHand < 21) (hd : deck.drawCard = some (card, deck1)) :
    playerLoop dealerHand (Token.chr 'h' :: rest) deck playerHand out
      = playerLoop dealerHand rest deck1 (playerHand ++ [card])
          (out ++ [drawHand dealerHand "DEALER HAND" true,
            drawHand playerHand "PLAYER HAND" false,
            "\nYOUR TOTAL: " ++ toString (calculatePoints playerHand) ++ "\n"]
            ++ ["ACTION: [h] Hit | [s] Stand: "]) := by
  rw [playerLoop_unfold, if_neg (by omega)]
  simp only [if_true, hd]

theorem playerLoop_other (dealerHand : List Card) (rest : List Token) (deck : Deck)
    (playerHand : List Card) (out : List String) (choice : Char)
    (hp : calculatePoints playerHand < 21) (hc : choice ≠ 'h') :
    playerLoop dealerHand (Token.chr choice :: rest) deck playerHand out
      = some ⟨rest, deck, playerHand,
          out ++ [drawHand dealerHand "DEALER HAND" true,
            drawHand playerHand "PLAYER HAND" false,
            "\nYOUR TOTAL: " ++ toString (calculatePoints playerHand) ++ "\n"]
            ++ ["ACTION: [h] Hit | [s] Stand: "]⟩ := by
  rw [playerLoop_unfold, if_neg (by omega)]
  simp only [if_neg hc]

theorem playerLoop_prefixes (dealerHand : List Card) (input : List Token) (deck : Deck)
    (playerHand : List Card) (out : List String) (pt : PlayerTurn)
    (h : playerLoop dealerHand input deck playerHand out = some pt) :
    ∀ n, playerHand.length ≤ n → n < pt.playerHand.length →
      calculatePoints (pt.playerHand.take n) < 21 := by
  induction input generalizing deck playerHand out with
  | nil =>
    rw [playerLoop_unfold] at h
    by_cases hp : calculatePoints playerHand ≥ 21
    · simp only [if_pos hp, Option.some.injEq] at h
      subst h
      intro n h1 h2
      simp only at h2
      omega
    · simp [if_neg hp] at h
  | cons tok rest ih =>
    rw [playerLoop_unfold] at h
    by_cases hp : calculatePoints playerHand ≥ 21
    · simp only [if_pos hp, Option.some.injEq] at h
      subst h
      intro n h1 h2
      simp only at h2
      omega
    · simp only [if_neg hp] at h
      cases tok with
      | num n => simp at h
      | chr choice =>
        simp only at h
        by_cases hc : choice = 'h'
        · simp only [if_pos hc] at h
          cases hd : deck.drawCard with
          | none => simp [hd] at h
          | some x =>
            obtain ⟨card, deck1⟩ := x
            simp only [hd] at h
            obtain ⟨hits, h1, _, _⟩ := playerLoop_some _ _ _ _ _ pt h
            intro n hn1 hn2
            by_cases hn : n = playerHand.length
            · subst hn
              rw [h1, List.append_assoc, List.take_left']
              · omega
              · rfl
            · exact ih _ _ _ h n (by simp; omega) hn2
        · simp only [if_neg hc, Option.some.injEq] at h
          subst h
          intro n h1 h2
          simp only at h2
          omega

/-- C14: one pass of the player's loop. With a total of 21 or more the loop
ends with input, deck and hand untouched; below 21 the decision `'h'` pushes
the card drawn from the deck onto the player's hand and runs the loop again
with the same dealer hand, and the decision `'s'` ends the loop with hand and
deck unchanged. So the final hand is the initial one followed by the cards
drawn, and each of its proper initial segments that contains the initial hand
scores below 21. -/
theorem player_turn_steps (dealerHand : List Card) (input : List Token) (deck : Deck)
    (playerHand : List Card) (out : List String) :
    (21 ≤ calculatePoints playerHand →
      playerLoop dealerHand input deck playerHand out
        = some ⟨input, deck, playerHand,
            out ++ [drawHand dealerHand "DEALER HAND" true,
              drawHand playerHand "PLAYER HAND" false,
              "\nYOUR TOTAL: " ++ toString (calculatePoints playerHand) ++ "\n"]⟩)
    ∧ (calculatePoints playerHand < 21 →
        ∀ rest card deck1, input = Token.chr 'h' :: rest →
          deck.drawCard = some (card, deck1) →
          playerLoop dealerHand input deck playerHand out
            = playerLoop dealerHand rest deck1 (playerHand ++ [card])
                (out ++ [drawHand dealerHand "DEALER HAND" true,
                  drawHand playerHand "PLAYER HAND" false,
                  "\nYOUR TOTAL: " ++ toString (calculatePoints playerHand) ++ "\n"]
                  ++ ["ACTION: [h] Hit | [s] Stand: "]))
    ∧ (calculatePoints playerHand < 21 →
        ∀ rest, input = Token.chr 's' :: rest →
          playerLoop dealerHand input deck playerHand out
            = some ⟨rest, deck, playerHand,
                out ++ [drawHand dealerHand "DEALER HAND" true,
                  drawHand playerHand "PLAYER HAND" false,
                  "\nYOUR TOTAL: " ++ toString (calculatePoints playerHand) ++ "\n"]
                  ++ ["ACTION: [h] Hit | [s] Stand: "]⟩)
    ∧ (∀ pt, playerLoop dealerHand input deck playerHand out = some pt →
        (∃ hits, pt.playerHand = playerHand ++ hits
          ∧ deck.cards = pt.deck.cards ++ hits.reverse)
        ∧ ∀ n, playerHand.length ≤ n → n < pt.playerHand.length →
            calculatePoints (pt.playerHand.take n) < 21) := by
  refine ⟨fun hp => playerLoop_exit dealerHand input deck playerHand out hp, ?_, ?_, ?_⟩
  · intro hp rest card deck1 hin hd
    subst hin
    exact playerLoop_hit dealerHand rest deck deck1 playerHand out card hp hd
  · intro hp rest hin
    subst hin
    exact playerLoop_other dealerHand rest deck playerHand out 's' hp (by decide)
  · intro pt h
    obtain ⟨hits, h1, h2, _⟩ := playerLoop_some _ _ _ _ _ pt h
    exact ⟨⟨hits, h1, h2⟩, playerLoop_prefixes _ _ _ _ _ pt h⟩

/-- C11 as amended: an action character other than `'h'`, recognised or not,
leaves the player's hand and the deck unchanged but ends the player's loop as
Stand does; the character is consumed, the player is not asked again, and the
evaluation moves on to the dealer's turn. -/
theorem non_hit_action_stands (dealerHand : List Card) (rest : List Token) (deck : Deck)
    (playerHand : List Card) (out : List String) (choice : Char)
    (hp : calculatePoints playerHand < 21) (hc : choice ≠ 'h') :
    ∃ pt, playerLoop dealerHand (Token.chr choice :: rest) deck playerHand out = some pt
      ∧ pt.input = rest ∧ pt.deck = deck ∧ pt.playerHand = playerHand
      ∧ ∀ balance bet r, evaluate balance bet pt dealerHand = some r →
          dealerTurn deck dealerHand = some (r.deck, r.dealerHand)
          ∧ r.playerHand = playerHand ∧ r.input = rest := by
  refine ⟨_, playerLoop_other dealerHand rest deck playerHand out choice hp hc,
    rfl, rfl, rfl, ?_⟩
  intro balance bet r h
  obtain ⟨h1, h2, h3, _⟩ := evaluate_not_bust balance bet _ dealerHand r
    (by simp only; omega) h
  exact ⟨h1, h2, h3⟩

/-! ## Theorems: the cards of a round -/

theorem playerLoop_total (dealerHand : List Card) (cs : List Char) (rest : List Token)
    (deck : Deck) (playerHand : List Card) (out : List String)
    (hdeck : 21 ≤ deck.cards.length + playerHand.length)
    (hcs : (∃ c ∈ cs, c ≠ 'h') ∨ 21 ≤ cs.length + playerHand.length) :
    ∃ pt, playerLoop dealerHand (cs.map Token.chr ++ rest) deck playerHand out = some pt := by
  induction cs generalizing deck playerHand out with
  | nil =>
    have hlen : 21 ≤ playerHand.length := by
      rcases hcs with ⟨c, hc, _⟩ | h
      · simp at hc
      · simpa using h
    have := calculatePoints_ge_length playerHand
    exact ⟨_, playerLoop_exit _ _ _ _ _ (by omega)⟩
  | cons c cs ih =>
    by_cases hp : 21 ≤ calculatePoints playerHand
    · exact ⟨_, playerLoop_exit _ _ _ _ _ hp⟩
    · have hp1 : calculatePoints playerHand < 21 := by omega
      have hlen := calculatePoints_ge_length playerHand
      by_cases hc : c = 'h'
      · subst hc
        rcases deck with ⟨l⟩
        rcases List.eq_nil_or_concat l with h0 | ⟨l0, b, rfl⟩
        · subst h0
          simp only [List.length_nil] at hdeck
          omega
        · rw [List.concat_eq_append] at hdeck ⊢
          simp only [List.map_cons, List.cons_append]
          rw [playerLoop_hit _ _ _ ⟨l0⟩ _ _ b hp1 (drawCard_append_singleton l0 b)]
          apply ih
          · simp only [List.length_append, List.length_singleton] at hdeck ⊢
            omega
          · rcases hcs with ⟨c1, hc1, hne⟩ | h
            · left
              rcases List.mem_cons.1 hc1 with h1 | h1
              · exact absurd h1 hne
              · exact ⟨c1, h1, hne⟩
            · right
              simp only [List.length_cons, List.length_append, List.length_singleton] at h ⊢
              omega
      · simp only [List.map_cons, List.cons_append]
        exact ⟨_, playerLoop_other _ _ _ _ _ c hp1 hc⟩

theorem playRound_shape (rng : List Card → List Card) (balance bet : Int)
    (input : List Token) (out : List String) (r : Round)
    (h : playRound rng balance bet input out = some r) :
    ∃ p1 p2 q1 q2 hits ds,
      r.playerHand = [p1, p2] ++ hits
      ∧ r.dealerHand = [q1, q2] ++ ds
      ∧ rng Deck.new.cards = r.deck.cards ++ ds.reverse ++ hits.reverse ++ [q2, q1, p2, p1]
      ∧ (∀ n, 2 ≤ n → n < r.playerHand.length → calculatePoints (r.playerHand.take n) < 21)
      ∧ (∀ n, 2 ≤ n → n < r.dealerHand.length → calculatePoints (r.dealerHand.take n) < 17) := by
  obtain ⟨deck0, ph0, dh0, pt, hdeal, hpl, hev⟩ := playRound_some rng balance bet input out r h
  obtain ⟨p1, p2, q1, q2, rfl, rfl, hcards⟩ := deal_some _ deck0 _ _ hdeal
  obtain ⟨hits, hh1, hh2, _⟩ := playerLoop_some _ _ _ _ _ pt hpl
  have hpre := playerLoop_prefixes _ _ _ _ _ pt hpl
  have hc : (Deck.new.shuffleDeck rng).cards = rng Deck.new.cards := rfl
  rw [hc] at hcards
  by_cases hb : 21 < calculatePoints pt.playerHand
  · rw [evaluate_bust balance bet pt [q1, q2] hb] at hev
    simp only [Option.some.injEq] at hev
    subst hev
    refine ⟨p1, p2, q1, q2, hits, [], hh1, rfl, ?_, ?_, ?_⟩
    · rw [hcards, hh2]; simp
    · intro n h1 h2
      exact hpre n (by simpa using h1) h2
    · intro n h1 h2
      simp only [List.length_cons, List.length_nil, List.append_nil] at h2
      omega
  · obtain ⟨hd, hp2, _, _⟩ := evaluate_not_bust balance bet pt [q1, q2] r (by omega) hev
    obtain ⟨ds, hdeck, hdh, _, hlow⟩ := dealerLoop_some _ _ _ _ _ hd
    refine ⟨p1, p2, q1, q2, hits, ds, by rw [hp2, hh1], hdh, ?_, ?_, ?_⟩
    · rw [hcards, hh2, hdeck]
    · intro n h1 h2
      rw [hp2] at h2 ⊢
      exact hpre n (by simpa using h1) h2
    · intro n h1 h2
      rw [hdh] at h2 ⊢
      simp only [List.length_append, List.length_cons, List.length_nil] at h2
      have := hlow (n - 2) (by omega)
      have ht : ([q1, q2] ++ ds).take n = [q1, q2] ++ ds.take (n - 2) := by
        rw [List.take_append_eq_append_take]
        simp only [List.length_cons, List.length_nil]
        rw [List.take_of_length_le (by simp; omega)]
      rw [ht]
      exact this

theorem deck_new_nodup : Deck.new.cards.Nodup := by decide

theorem suits_length_le (l : List Suit) (h : l.Nodup) : l.length ≤ 4 := by
  have hsub : l ⊆ [Suit.HEARTS, Suit.DIAMONDS, Suit.CLUBS, Suit.SPADES] := by
    intro s _
    cases s <;> simp
  exact (List.subperm_of_subset h hsub).length_le

theorem countP_rank_le_four (l : List Card) (hnd : l.Nodup) (r : Rank) :
    l.countP (fun c => decide (c.rank = r)) ≤ 4 := by
  rw [List.countP_eq_length_filter]
  have hf : (l.filter (fun c => decide (c.rank = r))).Nodup :=
    List.Nodup.sublist (List.filter_sublist l) hnd
  have hm : ((l.filter (fun c => decide (c.rank = r))).map Card.suit).Nodup := by
    refine List.Nodup.map_on ?_ hf
    intro x hx y hy hxy
    simp only [List.mem_filter, decide_eq_true_eq] at hx hy
    rcases x with ⟨xr, xs⟩
    rcases y with ⟨yr, ys⟩
    simp only at hx hy hxy
    rw [hx.2, hy.2, hxy]
  have := suits_length_le _ hm
  simpa using this

theorem lowTotal_ge_count (l : List Card) :
    3 * (l.length : Int)
      ≤ lowTotal l + 2 * (l.countP (fun c => decide (c.rank = Rank.ACE)) : Int)
        + (l.countP (fun c => decide (c.rank = Rank.TWO)) : Int) := by
  induction l with
  | nil => simp [lowTotal]
  | cons c cs ih =>
    rcases c with ⟨r, s⟩
    simp only [lowTotal, List.length_cons, List.countP_cons]
    push_cast
    cases r <;> simp [Card.getValue, Rank.toNat] <;> omega

theorem lowTotal_nodup_ge (l : List Card) (hnd : l.Nodup) :
    3 * (l.length : Int) ≤ lowTotal l + 12 := by
  have h1 := lowTotal_ge_count l
  have h2 := countP_rank_le_four l hnd Rank.ACE
  have h3 := countP_rank_le_four l hnd Rank.TWO
  omega

theorem lowTotal_init_le (a b : Card) (xs : List Card) (bound : Int) (hb : 10 ≤ bound)
    (h : ∀ n, 2 ≤ n → n < ([a, b] ++ xs).length →
      calculatePoints (([a, b] ++ xs).take n) ≤ bound) :
    lowTotal (([a, b] ++ xs).take (([a, b] ++ xs).length - 1)) ≤ bound := by
  cases xs with
  | nil =>
    have := lowTotal_singleton_le a
    simp only [List.append_nil, List.length_cons, List.length_nil, Nat.reduceAdd,
      Nat.add_one_sub_one, List.take_succ_cons, List.take_zero]
    omega
  | cons x xs =>
    have h1 := h (([a, b] ++ x :: xs).length - 1) (by simp) (by simp)
    have h2 := lowTotal_le_calculatePoints
      (([a, b] ++ x :: xs).take (([a, b] ++ x :: xs).length - 1))
    omega

theorem playRound_conserves (rng : List Card → List Card) (balance bet : Int)
    (input : List Token) (out : List String) (r : Round)
    (h : playRound rng balance bet input out = some r) :
    (r.deck.cards ++ (r.playerHand ++ r.dealerHand)).Perm (rng Deck.new.cards) := by
  obtain ⟨p1, p2, q1, q2, hits, ds, hp, hd, hcards, _, _⟩ :=
    playRound_shape rng balance bet input out r h
  have h4 : [q2, q1, p2, p1] = [q1, q2].reverse ++ [p1, p2].reverse := rfl
  rw [hcards, hp, hd, h4, List.perm_iff_count]
  intro c
  simp only [List.count_append, List.count_reverse]
  omega

theorem playRound_draws_le (rng : List Card → List Card)
    (hperm : (rng Deck.new.cards).Perm Deck.new.cards) (balance bet : Int)
    (input : List Token) (out : List String) (r : Round)
    (h : playRound rng balance bet input out = some r) :
    r.deck.cards.length + (r.playerHand.length + r.dealerHand.length) = 52
      ∧ r.playerHand.length + r.dealerHand.length ≤ 18 := by
  have hcons := playRound_conserves rng balance bet input out r h
  have hlen : r.deck.cards.length + (r.playerHand.length + r.dealerHand.length) = 52 := by
    have := (hcons.trans hperm).length_eq
    simpa using this
  refine ⟨hlen, ?_⟩
  have hnd : (r.playerHand ++ r.dealerHand).Nodup := by
    have : (r.deck.cards ++ (r.playerHand ++ r.dealerHand)).Nodup :=
      (hcons.trans hperm).nodup_iff.2 deck_new_nodup
    exact (List.nodup_append.1 this).2.1
  obtain ⟨p1, p2, q1, q2, hits, ds, hp, hd, _, hpl, hdl⟩ :=
    playRound_shape rng balance bet input out r h
  have hA := lowTotal_init_le p1 p2 hits 20 (by decide)
    (by
      intro n h1 h2
      rw [← hp] at h2 ⊢
      have := hpl n h1 h2
      omega)
  have hB := lowTotal_init_le q1 q2 ds 16 (by decide)
    (by
      intro n h1 h2
      rw [← hd] at h2 ⊢
      have := hdl n h1 h2
      omega)
  rw [← hp] at hA
  rw [← hd] at hB
  have hsub : (r.playerHand.take (r.playerHand.length - 1)
      ++ r.dealerHand.take (r.dealerHand.length - 1)).Nodup :=
    List.Nodup.sublist ((List.take_sublist _ _).append (List.take_sublist _ _)) hnd
  have hcount := lowTotal_nodup_ge _ hsub
  rw [lowTotal_append] at hcount
  simp only [List.length_append, List.length_take] at hcount
  have hP : 2 ≤ r.playerHand.length := by rw [hp]; simp
  have hD : 2 ≤ r.dealerHand.length := by rw [hd]; simp
  omega

theorem evaluate_isSome (balance bet : Int) (pt : PlayerTurn) (dealerHand : List Card)
    (h : 17 ≤ dealerHand.length + pt.deck.cards.length) :
    ∃ r, evaluate balance bet pt dealerHand = some r := by
  by_cases hb : 21 < calculatePoints pt.playerHand
  · exact ⟨_, evaluate_bust balance bet pt dealerHand hb⟩
  · obtain ⟨d1, h1, hd⟩ := dealerTurn_total pt.deck dealerHand h
    simp only [evaluate]
    rw [if_neg (by omega), hd]
    exact ⟨_, rfl⟩

/-- C13: with a deck that the shuffle has reordered, a round ends for every
sequence of decisions that contains a Stand or is at least 19 long, so no
`drawCard` meets an empty deck and both loops terminate; and every round
that ends has drawn at most 21 cards in all, the sizes of the two hands, the
rest of the 52 being still in the deck. -/
theorem round_draws_at_most_21 (rng : List Card → List Card)
    (hperm : (rng Deck.new.cards).Perm Deck.new.cards) (balance bet : Int)
    (out : List String) :
    (∀ (cs : List Char) (rest : List Token),
      ((∃ c ∈ cs, c ≠ 'h') ∨ 19 ≤ cs.length) →
      ∃ r, playRound rng balance bet (cs.map Token.chr ++ rest) out = some r)
    ∧ (∀ input r, playRound rng balance bet input out = some r →
        r.deck.cards.length + (r.playerHand.length + r.dealerHand.length) = 52
        ∧ r.playerHand.length + r.dealerHand.length ≤ 21
        ∧ 31 ≤ r.deck.cards.length) := by
  constructor
  · intro cs rest hcs
    have hlen : (rng Deck.new.cards).length = 52 := by rw [hperm.length_eq]; rfl
    obtain ⟨l0, a, b, c, d, hl⟩ := exists_append_four (rng Deck.new.cards) (by omega)
    have hl0 : l0.length = 48 := by
      have := congrArg List.length hl
      simp only [List.length_append, List.length_cons, List.length_nil] at this
      omega
    have hdeal : deal (Deck.new.shuffleDeck rng) = some (⟨l0⟩, [d, c], [b, a]) := by
      have : Deck.new.shuffleDeck rng = ⟨l0 ++ [a, b, c, d]⟩ := by
        simp only [Deck.shuffleDeck, hl]
      rw [this, deal_append_four]
    obtain ⟨pt, hpt⟩ := playerLoop_total [b, a] cs rest ⟨l0⟩ [d, c] out
      (by simp only [hl0, List.length_cons, List.length_nil]; omega)
      (by
        rcases hcs with h | h
        · exact Or.inl h
        · right; simp only [List.length_cons, List.length_nil]; omega)
    obtain ⟨hits, hh1, hh2, _⟩ := playerLoop_some _ _ _ _ _ pt hpt
    have hpre := playerLoop_prefixes _ _ _ _ _ pt hpt
    have hhits : hits.length ≤ 19 := by
      by_contra hcon
      have h1 := hpre (pt.playerHand.length - 1)
        (by rw [hh1]; simp; omega) (by rw [hh1]; simp)
      have h2 := calculatePoints_ge_length (pt.playerHand.take (pt.playerHand.length - 1))
      simp only [List.length_take] at h2
      have h3 : pt.playerHand.length = 2 + hits.length := by rw [hh1]; simp; omega
      omega
    have hdk : 29 ≤ pt.deck.cards.length := by
      have := congrArg List.length hh2
      simp only [List.length_append, List.length_reverse, hl0] at this
      omega
    obtain ⟨r, hr⟩ := evaluate_isSome balance bet pt [b, a]
      (by simp only [List.length_cons, List.length_nil]; omega)
    exact ⟨r, by simp only [playRound, hdeal, hpt, hr]⟩
  · intro input r h
    obtain ⟨h1, h2⟩ := playRound_draws_le rng hperm balance bet input out r h
    exact ⟨h1, by omega, by omega⟩

/-- C15: the cards of a round are conserved. The deal takes the last two cards
of the shuffled deck for the player and the next two for the dealer; every
later draw moves one card from the deck to a hand; so after the deal, after
the player's loop and at the end of the round the deck and the two hands
together are a reordering of the fresh 52-card deck, and no card occurs twice
in the hands. -/
theorem cards_conserved (rng : List Card → List Card)
    (hperm : (rng Deck.new.cards).Perm Deck.new.cards) (balance bet : Int)
    (input : List Token) (out : List String) :
    (∃ l0 a b c d, rng Deck.new.cards = l0 ++ [a, b, c, d]
      ∧ deal (Deck.new.shuffleDeck rng) = some (⟨l0⟩, [d, c], [b, a])
      ∧ (l0 ++ ([d, c] ++ [b, a])).Perm Deck.new.cards)
    ∧ (∀ (deck deck1 : Deck) (ph dh : List Card) (c : Card),
        (deck.cards ++ (ph ++ dh)).Perm Deck.new.cards →
        deck.drawCard = some (c, deck1) →
        (deck1.cards ++ ((ph ++ [c]) ++ dh)).Perm Deck.new.cards
        ∧ (deck1.cards ++ (ph ++ (dh ++ [c]))).Perm Deck.new.cards)
    ∧ (∀ deck0 ph0 dh0 pt, deal (Deck.new.shuffleDeck rng) = some (deck0, ph0, dh0) →
        playerLoop dh0 input deck0 ph0 out = some pt →
        (pt.deck.cards ++ (pt.playerHand ++ dh0)).Perm Deck.new.cards)
    ∧ (∀ r, playRound rng balance bet input out = some r →
        (r.deck.cards ++ (r.playerHand ++ r.dealerHand)).Perm Deck.new.cards
        ∧ (r.deck.cards ++ (r.playerHand ++ r.dealerHand)).Nodup
        ∧ (r.playerHand ++ r.dealerHand).Nodup
        ∧ r.deck.cards.length + (r.playerHand.length + r.dealerHand.length) = 52) := by
  have hlen : (rng Deck.new.cards).length = 52 := by rw [hperm.length_eq]; rfl
  refine ⟨?_, ?_, ?_, ?_⟩
  · obtain ⟨l0, a, b, c, d, hl⟩ := exists_append_four (rng Deck.new.cards) (by omega)
    refine ⟨l0, a, b, c, d, hl, ?_, ?_⟩
    · have : Deck.new.shuffleDeck rng = ⟨l0 ++ [a, b, c, d]⟩ := by
        simp only [Deck.shuffleDeck, hl]
      rw [this, deal_append_four]
    · refine List.Perm.trans ?_ hperm
      rw [hl]
      refine List.Perm.append_left l0 ?_
      rw [List.perm_iff_count]
      intro x
      simp only [List.count_append, List.count_cons, List.count_nil]
      omega
  · intro deck deck1 ph dh c hinv hd
    have hdeck := drawCard_some deck deck1 c hd
    rw [hdeck] at hinv
    constructor
    · refine List.Perm.trans ?_ hinv
      rw [List.perm_iff_count]
      intro x
      simp only [List.count_append]
      omega
    · refine List.Perm.trans ?_ hinv
      rw [List.perm_iff_count]
      intro x
      simp only [List.count_append]
      omega
  · intro deck0 ph0 dh0 pt hdeal hpl
    obtain ⟨p1, p2, q1, q2, rfl, rfl, hcards⟩ := deal_some _ deck0 _ _ hdeal
    obtain ⟨hits, hh1, hh2, _⟩ := playerLoop_some _ _ _ _ _ pt hpl
    have hc : (Deck.new.shuffleDeck rng).cards = rng Deck.new.cards := rfl
    rw [hc] at hcards
    refine List.Perm.trans ?_ hperm
    have h4 : [q2, q1, p2, p1] = [q1, q2].reverse ++ [p1, p2].reverse := rfl
    rw [hcards, hh2, hh1, h4, List.perm_iff_count]
    intro x
    simp only [List.count_append, List.count_reverse]
    omega
  · intro r h
    have hcons := (playRound_conserves rng balance bet input out r h).trans hperm
    have hnd : (r.deck.cards ++ (r.playerHand ++ r.dealerHand)).Nodup :=
      hcons.nodup_iff.2 deck_new_nodup
    refine ⟨hcons, hnd, (List.nodup_append.1 hnd).2.1, ?_⟩
    have := hcons.length_eq
    simpa using this

/-! ## Theorems: the session -/

theorem settle_cases (balance bet playerFinal dealerFinal : Int) :
    (settle balance bet playerFinal dealerFinal).1 = balance - bet
    ∨ (settle balance bet playerFinal dealerFinal).1 = balance
    ∨ (settle balance bet playerFinal dealerFinal).1 = addInt32 balance bet := by
  simp only [settle]
  split_ifs
  · exact Or.inr (Or.inr rfl)
  · exact Or.inl rfl
  · exact Or.inr (Or.inl rfl)

theorem playRound_balance (rng : List Card → List Card) (balance bet : Int)
    (input : List Token) (out : List String) (r : Round)
    (h : playRound rng balance bet input out = some r) :
    (r.balance = balance - bet ∨ r.balance = balance ∨ r.balance = addInt32 balance bet)
      ∧ r.input.length ≤ input.length := by
  obtain ⟨deck0, ph0, dh0, pt, _, hpl, hev⟩ := playRound_some rng balance bet input out r h
  obtain ⟨hits, _, _, hlen⟩ := playerLoop_some _ _ _ _ _ pt hpl
  have hin : pt.input.length ≤ input.length := by omega
  by_cases hb : 21 < calculatePoints pt.playerHand
  · rw [evaluate_bust balance bet pt dh0 hb] at hev
    simp only [Option.some.injEq] at hev
    subst hev
    exact ⟨Or.inl rfl, hin⟩
  · obtain ⟨_, _, h3, h4⟩ := evaluate_not_bust balance bet pt dh0 r (by omega) hev
    rw [h4, h3]
    exact ⟨settle_cases _ _ _ _, hin⟩

theorem afterRound_some (playAgain : Char) (rngs : List (List Card → List Card))
    (r : Round) (st1 : Session) (h : afterRound playAgain rngs r = some st1) :
    st1.balance = r.balance ∧ st1.rng = rngs ∧ st1.input.length ≤ r.input.length := by
  simp only [afterRound] at h
  by_cases hb : r.balance > 0
  · rw [if_pos hb] at h
    cases hin : r.input with
    | nil => simp [hin] at h
    | cons tok rest =>
      cases tok with
      | num n => simp [hin] at h
      | chr c =>
        simp only [hin, Option.some.injEq] at h
        subst h
        simp
  · rw [if_neg hb] at h
    simp only [Option.some.injEq] at h
    subst h
    simp

theorem loopBody_cases (st st1 : Session) (h : loopBody st = some st1) :
    ∃ bet rest, st.input = Token.num bet :: rest
      ∧ (((bet ≤ 0 ∨ bet > st.balance)
          ∧ st1 = ⟨st.balance, st.playAgain, rest, st.rng,
              st.out ++ ["\nBALANCE: $" ++ toString st.balance ++ " | Enter bet: "]
                ++ ["Invalid bet! Input must be between 1 and current balance." ++ "\n"]⟩)
        ∨ (1 ≤ bet ∧ bet ≤ st.balance
          ∧ ∃ rng rngs r, st.rng = rng :: rngs
            ∧ playRound rng st.balance bet rest
                (st.out ++ ["\nBALANCE: $" ++ toString st.balance ++ " | Enter bet: "])
              = some r
            ∧ afterRound st.playAgain rngs r = some st1)) := by
  simp only [loopBody] at h
  cases hin : st.input with
  | nil => simp [hin] at h
  | cons tok rest =>
    cases tok with
    | chr c => simp [hin] at h
    | num bet =>
      simp only [hin] at h
      refine ⟨bet, rest, rfl, ?_⟩
      by_cases hc : bet > st.balance ∨ bet ≤ 0
      · rw [if_pos hc] at h
        simp only [Option.some.injEq] at h
        exact Or.inl ⟨by omega, h.symm⟩
      · rw [if_neg hc] at h
        right
        refine ⟨by omega, by omega, ?_⟩
        cases hr : st.rng with
        | nil => simp [hr] at h
        | cons rng rngs =>
          simp only [hr] at h
          cases hp : playRound rng st.balance bet rest
              (st.out ++ ["\nBALANCE: $" ++ toString st.balance ++ " | Enter bet: "]) with
          | none => simp [hp] at h
          | some r =>
            simp only [hp] at h
            exact ⟨rng, rngs, r, rfl, hp, h⟩

theorem loopBody_balance (st st1 : Session) (h : loopBody st = some st1) :
    ∃ bet rest, st.input = Token.num bet :: rest
      ∧ (((bet ≤ 0 ∨ bet > st.balance) ∧ st1.balance = st.balance)
        ∨ (1 ≤ bet ∧ bet ≤ st.balance
          ∧ (st1.balance = st.balance - bet ∨ st1.balance = st.balance
            ∨ st1.balance = addInt32 st.balance bet)))
      ∧ st1.input.length ≤ rest.length := by
  obtain ⟨bet, rest, hin, hcase⟩ := loopBody_cases st st1 h
  refine ⟨bet, rest, hin, ?_⟩
  rcases hcase with ⟨hbad, rfl⟩ | ⟨h1, h2, rng, rngs, r, _, hpr, har⟩
  · exact ⟨Or.inl ⟨hbad, rfl⟩, le_refl _⟩
  · obtain ⟨hb, hl⟩ := playRound_balance _ _ _ _ _ r hpr
    obtain ⟨ha, _, hal⟩ := afterRound_some _ _ _ _ har
    rw [← ha] at hb
    exact ⟨Or.inr ⟨h1, h2, hb⟩, by omega⟩

theorem mainLoop_fuel (fuel : Nat) (st s : Session) (h : mainLoop fuel st = some s) :
    ∀ fuel1, st.input.length + 1 ≤ fuel1 → mainLoop fuel1 st = some s := by
  induction fuel generalizing st with
  | zero => simp [mainLoop] at h
  | succ f ih =>
    intro fuel1 hf
    obtain ⟨g, rfl⟩ : ∃ g, fuel1 = g + 1 := ⟨fuel1 - 1, by omega⟩
    rw [mainLoop_succ] at h ⊢
    by_cases hc : loopCond st = true
    · rw [if_pos hc] at h ⊢
      cases hb : loopBody st with
      | none => simp [hb] at h
      | some st1 =>
        simp only [hb] at h ⊢
        obtain ⟨bet, rest, hin, _, hlen⟩ := loopBody_balance st st1 hb
        have : st.input.length = rest.length + 1 := by rw [hin]; simp
        exact ih st1 h g (by omega)
    · rw [if_neg hc] at h ⊢
      exact h

theorem loopCond_pos (st : Session) (h : loopCond st = true) : 0 < st.balance := by
  simp only [loopCond, Bool.and_eq_true, decide_eq_true_eq] at h
  exact h.1

theorem mainLoop_of_not_pos (fuel : Nat) (st : Session) (h : ¬ 0 < st.balance) :
    mainLoop (fuel + 1) st = some st := by
  have hc : ¬ (loopCond st = true) := fun hc => h (loopCond_pos st hc)
  rw [mainLoop_succ, if_neg hc]

/-- C12: a round that leaves the balance at 0 ends the session. The end of the
pass reads nothing and writes only the game-over line; in a state without a
positive balance the game loop ends at once, reading and writing nothing, so
a bet is read only from a state with a positive balance; and `main` reports
the balance of the state in which the loop ended. -/
theorem zero_balance_ends_session (playAgain : Char)
    (rngs : List (List Card → List Card)) (r : Round) (h0 : r.balance = 0) :
    afterRound playAgain rngs r
      = some ⟨0, playAgain, r.input, rngs, r.out ++ ["\nGAME OVER! Zero balance." ++ "\n"]⟩
    ∧ (∀ fuel, mainLoop (fuel + 1)
          ⟨0, playAgain, r.input, rngs, r.out ++ ["\nGAME OVER! Zero balance." ++ "\n"]⟩
        = some ⟨0, playAgain, r.input, rngs,
            r.out ++ ["\nGAME OVER! Zero balance." ++ "\n"]⟩)
    ∧ (∀ fuel st st1, loopCond st = true → loopBody st = some st1 → st1.balance = 0 →
        mainLoop (fuel + 2) st = some st1)
    ∧ (∀ st, loopCond st = true → 0 < st.balance)
    ∧ (∀ st fuel, ¬ 0 < st.balance → mainLoop (fuel + 1) st = some st)
    ∧ (∀ input rng fuel st, mainLoop fuel ⟨1000, 'y', input, rng, banner⟩ = some st →
        main input rng
          = some (st.balance, st.out ++ ["\nFINAL BALANCE: $" ++ toString st.balance
              ++ "\nTerminating session..." ++ "\n"])) := by
  refine ⟨?_, ?_, ?_, loopCond_pos, fun st fuel h => mainLoop_of_not_pos fuel st h, ?_⟩
  · simp only [afterRound, h0]
    rw [if_neg (by decide)]
  · intro fuel
    exact mainLoop_of_not_pos fuel _ (by simp)
  · intro fuel st st1 hc hb hz
    rw [mainLoop_succ, if_pos hc, hb]
    exact mainLoop_of_not_pos fuel st1 (by omega)
  · intro input rng fuel st h
    have := mainLoop_fuel fuel _ st h (input.length + 1) (le_refl _)
    simp only [main, this]

theorem wrapInt32_inIntRange (x : Int) : inIntRange (wrapInt32 x) := by
  simp only [inIntRange, INT_MIN, INT_MAX, wrapInt32]
  omega

/-- The difference `balance -= bet` is exact in 32 bits on a valid bet. -/
theorem wrapInt32_sub_exact (balance bet : Int) (hr : inIntRange balance)
    (h1 : 1 ≤ bet) (h2 : bet ≤ balance) :
    wrapInt32 (balance - bet) = balance - bet ∧ inIntRange (balance - bet) := by
  simp only [inIntRange, INT_MIN, INT_MAX, wrapInt32] at hr ⊢
  omega

/-- The balance of every reachable state is a 32-bit `int` value. -/
theorem reachable_inIntRange (n : Nat) (st : Session) (h : ReachableIn n st) :
    inIntRange st.balance := by
  induction h with
  | start input rng hperm =>
    simp only [inIntRange, INT_MIN, INT_MAX]
    omega
  | pass hprev hcond hbody ih =>
    rename_i m s s1
    obtain ⟨bet, rest, _, hcase, _⟩ := loopBody_balance s s1 hbody
    rcases hcase with ⟨_, he⟩ | ⟨h1, h2, he⟩
    · rw [he]; exact ih
    · rcases he with he | he | he
      · rw [he]; exact (wrapInt32_sub_exact _ _ ih h1 h2).2
      · rw [he]; exact ih
      · rw [he]; exact wrapInt32_inIntRange _

theorem reachable_balance (n : Nat) (st : Session) (h : ReachableIn n st) :
    n ≤ 21 → 0 ≤ st.balance ∧ st.balance ≤ 1000 * 2 ^ n := by
  induction h with
  | start input rng hperm =>
    intro _
    simp
  | pass hprev hcond hbody ih =>
    rename_i m s s1
    intro hn
    obtain ⟨h0, hle⟩ := ih (by omega)
    obtain ⟨bet, rest, _, hcase, _⟩ := loopBody_balance s s1 hbody
    have hpow : (2 : Int) ^ (m + 1) = 2 * 2 ^ m := by ring
    have hpos : (0 : Int) < 2 ^ m := by positivity
    have hmono : (2 : Int) ^ m ≤ 2 ^ 20 := pow_le_pow_right₀ (by decide) (by omega)
    norm_num at hmono
    rw [hpow]
    generalize (2 : Int) ^ m = X at *
    rcases hcase with ⟨_, he⟩ | ⟨h1, h2, he⟩
    · rw [he]; omega
    · rcases he with he | he | he
      · rw [he]; omega
      · rw [he]; omega
      · have hr : inIntRange (s.balance + bet) := by
          simp only [inIntRange, INT_MIN, INT_MAX]
          omega
        rw [he, addInt32_exact _ _ hr]
        omega

theorem winShuffle_perm (l : List Card) : (winShuffle l).Perm l := by
  have hA : (l.drop 46).take 2 ++ l.drop 48 = l.drop 46 := by
    have h := List.take_append_drop 2 (l.drop 46)
    rw [List.drop_drop] at h
    exact h
  have hB : (l.drop 48).take 2 ++ l.drop 50 = l.drop 48 := by
    have h := List.take_append_drop 2 (l.drop 48)
    rw [List.drop_drop] at h
    exact h
  have hl : l.take 46 ++ ((l.drop 46).take 2 ++ ((l.drop 48).take 2 ++ l.drop 50)) = l := by
    rw [hB, hA, List.take_append_drop]
  rw [List.perm_iff_count]
  intro x
  have := congrArg (List.count x) hl
  simp only [winShuffle, List.count_append] at this ⊢
  omega

theorem winShuffle_deal :
    deal (Deck.new.shuffleDeck winShuffle)
      = some (⟨(winShuffle Deck.new.cards).take 48⟩,
          [⟨Rank.KING, Suit.SPADES⟩, ⟨Rank.QUEEN, Suit.SPADES⟩],
          [⟨Rank.NINE, Suit.SPADES⟩, ⟨Rank.EIGHT, Suit.SPADES⟩]) := by
  decide

/-- The round on the deck `winShuffle` deals from, with the whole balance bet
and an immediate Stand: the player's 20 beats the dealer's 17. -/
theorem all_in_round (b : Int) (rest : List Token) (out : List String) :
    ∃ r, playRound winShuffle b b (Token.chr 's' :: rest) out = some r
      ∧ r.balance = addInt32 b b ∧ r.input = rest := by
  have hp : calculatePoints [⟨Rank.KING, Suit.SPADES⟩, ⟨Rank.QUEEN, Suit.SPADES⟩] = 20 := rfl
  have hd : calculatePoints [⟨Rank.NINE, Suit.SPADES⟩, ⟨Rank.EIGHT, Suit.SPADES⟩] = 17 := rfl
  have hpl := playerLoop_other [⟨Rank.NINE, Suit.SPADES⟩, ⟨Rank.EIGHT, Suit.SPADES⟩] rest
    ⟨(winShuffle Deck.new.cards).take 48⟩
    [⟨Rank.KING, Suit.SPADES⟩, ⟨Rank.QUEEN, Suit.SPADES⟩] out 's' (by rw [hp]; decide) (by decide)
  have hdt : dealerTurn ⟨(winShuffle Deck.new.cards).take 48⟩
      [⟨Rank.NINE, Suit.SPADES⟩, ⟨Rank.EIGHT, Suit.SPADES⟩]
      = some (⟨(winShuffle Deck.new.cards).take 48⟩,
          [⟨Rank.NINE, Suit.SPADES⟩, ⟨Rank.EIGHT, Suit.SPADES⟩]) := by
    rw [dealerTurn_unfold, if_neg (by rw [hd]; decide)]
  unfold playRound
  rw [winShuffle_deal]
  simp only []
  rw [hpl]
  simp only []
  unfold evaluate
  simp only []
  rw [if_neg (by rw [hp]; decide), hdt]
  simp only []
  rw [hp, hd]
  refine ⟨_, rfl, ?_, rfl⟩
  simp only [settle]
  rw [if_pos (by decide)]

/-- One pass of the game loop in which the player bets the whole balance on
the deck `winShuffle` deals from, stands on 20 against the dealer's 17 and
asks for another round: while the double fits an `int` the balance doubles. -/
theorem all_in_pass (b : Int) (hb : 0 < b) (hmax : b + b ≤ INT_MAX) (rest : List Token)
    (rngs : List (List Card → List Card)) (out : List String) :
    ∃ out1, loopBody ⟨b, 'y', Token.num b :: Token.chr 's' :: Token.chr 'y' :: rest,
        winShuffle :: rngs, out⟩
      = some ⟨b + b, 'y', rest, rngs, out1⟩ := by
  obtain ⟨r, hr, hbal, hin⟩ := all_in_round b (Token.chr 'y' :: rest)
    (out ++ ["\nBALANCE: $" ++ toString b ++ " | Enter bet: "])
  have hrange : inIntRange (b + b) := by
    simp only [inIntRange, INT_MIN, INT_MAX] at hmax ⊢
    omega
  rw [addInt32_exact b b hrange] at hbal
  have hc : ¬(b > b ∨ b ≤ 0) := by omega
  refine ⟨r.out ++ ["\nPlay another round? (y/n): "], ?_⟩
  simp only [loopBody, if_neg hc, hr, afterRound, hbal, hin]
  rw [if_pos (by omega)]

/-- The same pass on the balance 2097152000: the 32-bit sum is negative, the
program announces the end and the answer `'y'` is left unread. -/
theorem overflow_pass (rest : List Token)
    (rngs : List (List Card → List Card)) (out : List String) :
    ∃ out1, loopBody ⟨2097152000, 'y',
        Token.num 2097152000 :: Token.chr 's' :: rest, winShuffle :: rngs, out⟩
      = some ⟨-100663296, 'y', rest, rngs, out1⟩ := by
  obtain ⟨r, hr, hbal, hin⟩ := all_in_round 2097152000 rest
    (out ++ ["\nBALANCE: $" ++ toString (2097152000 : Int) ++ " | Enter bet: "])
  have hsum : addInt32 2097152000 2097152000 = -100663296 := by decide
  rw [hsum] at hbal
  have hc : ¬((2097152000 : Int) > 2097152000 ∨ (2097152000 : Int) ≤ 0) := by decide
  refine ⟨r.out ++ ["\nGAME OVER! Zero balance." ++ "\n"], ?_⟩
  simp only [loopBody, if_neg hc, hr, afterRound, hbal, hin]
  rw [if_neg (by decide)]

theorem all_in_reachable (n k : Nat) (b : Int) (hb : 0 < b) (hmax : b * 2 ^ n ≤ INT_MAX)
    (rest : List Token) (rngs : List (List Card → List Card)) (out : List String)
    (h : ReachableIn k ⟨b, 'y', allInInput n b ++ rest,
      List.replicate n winShuffle ++ rngs, out⟩) :
    ∃ out1, ReachableIn (k + n) ⟨b * 2 ^ n, 'y', rest, rngs, out1⟩ := by
  induction n generalizing k b out with
  | zero =>
    refine ⟨out, ?_⟩
    simpa [allInInput] using h
  | succ n ih =>
    have e1 : (b + b) * 2 ^ n = b * 2 ^ (n + 1) := by ring
    have hpos : (1 : Int) ≤ 2 ^ n := one_le_pow₀ (by decide)
    have hbb : b + b ≤ INT_MAX := by
      have : b + b ≤ (b + b) * 2 ^ n := le_mul_of_one_le_right (by omega) hpos
      rw [e1] at this
      omega
    obtain ⟨out1, hbody⟩ := all_in_pass b hb hbb (allInInput n (b + b) ++ rest)
      (List.replicate n winShuffle ++ rngs) out
    have hcond : loopCond ⟨b, 'y', allInInput (n + 1) b ++ rest,
        List.replicate (n + 1) winShuffle ++ rngs, out⟩ = true := by
      simp [loopCond, hb]
    have hstep := ReachableIn.pass h hcond hbody
    obtain ⟨out2, hfin⟩ := ih (k + 1) (b + b) (by omega) (by rw [e1]; exact hmax) out1 hstep
    have e2 : k + 1 + n = k + (n + 1) := by omega
    rw [e1, e2] at hfin
    exact ⟨out2, hfin⟩

/-- The run of `n` all-in wins from the balance 1000, for `n` up to 21, with
further input and shuffles pending. -/
theorem all_in_run (n : Nat) (hn : n ≤ 21) (rest : List Token)
    (rngs : List (List Card → List Card))
    (hperm : ∀ f ∈ rngs, ∀ l : List Card, (f l).Perm l) :
    ∃ out1, ReachableIn n ⟨1000 * 2 ^ n, 'y', rest, rngs, out1⟩ := by
  have hstart : ReachableIn 0 ⟨1000, 'y', allInInput n 1000 ++ rest,
      List.replicate n winShuffle ++ rngs, banner⟩ := by
    refine ReachableIn.start _ _ ?_
    intro f hf l
    rcases List.mem_append.1 hf with h | h
    · rw [(List.mem_replicate.1 h).2]
      exact winShuffle_perm l
    · exact hperm f h l
  have hmono : (2 : Int) ^ n ≤ 2 ^ 21 := pow_le_pow_right₀ (by decide) hn
  norm_num at hmono
  obtain ⟨out1, hreach⟩ := all_in_reachable n 0 1000 (by decide)
    (by simp only [INT_MAX]; omega) _ _ _ hstart
  rw [Nat.zero_add] at hreach
  exact ⟨out1, hreach⟩

theorem winShuffle_mem_perm :
    ∀ f ∈ [winShuffle], ∀ l : List Card, (f l).Perm l := by
  intro f hf l
  rw [List.mem_singleton.1 hf]
  exact winShuffle_perm l

/-- C19 as amended: in every state the session reaches from the balance 1000
by at most 20 passes of the game loop, the balance and every valid bet are
`int` values, the winning update `balance + bet` stays in the `int` range, and
the balance the 32-bit program computes for a win is the exact sum. -/
theorem balance_update_in_range (n : Nat) (st : Session) (h : ReachableIn n st)
    (hn : n ≤ 20) (bet : Int) (h1 : 1 ≤ bet) (h2 : bet ≤ st.balance) :
    inIntRange st.balance
    ∧ inIntRange bet
    ∧ inIntRange (st.balance + bet)
    ∧ addInt32 st.balance bet = st.balance + bet
    ∧ (∀ playerFinal dealerFinal, dealerFinal > 21 ∨ playerFinal > dealerFinal →
        (settle st.balance bet playerFinal dealerFinal).1 = st.balance + bet) := by
  obtain ⟨h0, hle⟩ := reachable_balance n st h (by omega)
  have hmono : (2 : Int) ^ n ≤ 2 ^ 20 := pow_le_pow_right₀ (by decide) hn
  norm_num at hmono
  generalize (2 : Int) ^ n = X at *
  have hr : inIntRange (st.balance + bet) := by
    simp only [inIntRange, INT_MIN, INT_MAX]
    omega
  refine ⟨?_, ?_, hr, addInt32_exact _ _ hr, ?_⟩
  · simp only [inIntRange, INT_MIN, INT_MAX]
    omega
  · simp only [inIntRange, INT_MIN, INT_MAX]
    omega
  · intro pf df hw
    simp only [settle, if_pos hw]
    exact addInt32_exact _ _ hr

/-- C19 fails: 21 passes, each an all-in bet that wins, lead from 1000 to the
balance 2097152000; the bet of that whole balance is valid and wins again, the
exact sum 4194304000 is outside the `int` range, and the balance the pass
leaves is -100663296. -/
theorem all_in_wins_overflow :
    ∃ st st1 bet, ReachableIn 21 st
      ∧ st.balance = 2097152000
      ∧ loopCond st = true
      ∧ 1 ≤ bet ∧ bet ≤ st.balance
      ∧ st.input = [Token.num bet, Token.chr 's']
      ∧ loopBody st = some st1
      ∧ ¬ inIntRange (st.balance + bet)
      ∧ st1.balance = -100663296
      ∧ st1.balance ≠ st.balance + bet := by
  obtain ⟨out1, hreach⟩ := all_in_run 21 (le_refl _)
    [Token.num 2097152000, Token.chr 's'] [winShuffle] winShuffle_mem_perm
  have e : (1000 : Int) * 2 ^ 21 = 2097152000 := by norm_num
  rw [e] at hreach
  obtain ⟨out2, hbody⟩ := overflow_pass [] [] out1
  refine ⟨_, _, 2097152000, hreach, rfl, by simp [loopCond], by decide, le_refl _, rfl,
    hbody, ?_, rfl, ?_⟩
  · simp only [inIntRange, INT_MIN, INT_MAX]
    omega
  · show (-100663296 : Int) ≠ 2097152000 + 2097152000
    decide

/-- C11 fails: on the deck in reverse order the player holds Ace and 2; the
action `'x'`, neither `'h'` nor `'s'`, ends the player's turn although an
`'h'` follows in the input: the dealer draws two cards, the round is resolved
against the player and the `'h'` is still unread. -/
theorem unrecognised_action_ends_player_turn :
    ∃ r, playRound List.reverse 1000 50 [Token.chr 'x', Token.chr 'h'] [] = some r
      ∧ r.input = [Token.chr 'h']
      ∧ r.playerHand = [⟨Rank.ACE, Suit.HEARTS⟩, ⟨Rank.TWO, Suit.HEARTS⟩]
      ∧ r.dealerHand.length = 4
      ∧ r.deck.cards.length = 46
      ∧ r.balance = 950 :=
  ⟨(playRound List.reverse 1000 50 [Token.chr 'x', Token.chr 'h'] []).get (by decide),
   (Option.some_get _).symm, by decide, by decide, by decide, by decide, by decide⟩

/-! ## Concrete instances: rounds and sessions -/

/-- With Ace and 2 in hand the action `'x'` ends the player's loop: the `'h'`
behind it stays unread and hand and deck are as before. -/
theorem non_hit_action_stands_witness :
    ∃ pt, playerLoop [⟨Rank.THREE, Suit.HEARTS⟩, ⟨Rank.FOUR, Suit.HEARTS⟩]
        [Token.chr 'x', Token.chr 'h'] ⟨[⟨Rank.FIVE, Suit.HEARTS⟩]⟩
        [⟨Rank.ACE, Suit.HEARTS⟩, ⟨Rank.TWO, Suit.HEARTS⟩] [] = some pt
      ∧ pt.input = [Token.chr 'h']
      ∧ pt.deck = ⟨[⟨Rank.FIVE, Suit.HEARTS⟩]⟩
      ∧ pt.playerHand = [⟨Rank.ACE, Suit.HEARTS⟩, ⟨Rank.TWO, Suit.HEARTS⟩] :=
  match non_hit_action_stands [⟨Rank.THREE, Suit.HEARTS⟩, ⟨Rank.FOUR, Suit.HEARTS⟩]
      [Token.chr 'h'] ⟨[⟨Rank.FIVE, Suit.HEARTS⟩]⟩
      [⟨Rank.ACE, Suit.HEARTS⟩, ⟨Rank.TWO, Suit.HEARTS⟩] [] 'x' (by decide) (by decide) with
  | ⟨pt, h1, h2, h3, h4, _⟩ => ⟨pt, h1, h2, h3, h4⟩

/-- A round that ends on balance 0 with a bet still in the input: the bet is
left unread; and the session that loses all 1000 on a bust reports 0. -/
theorem zero_balance_ends_session_witness :
    afterRound 'y' [] ⟨0, [Token.num 5], ⟨[]⟩, [], [], []⟩
        = some ⟨0, 'y', [Token.num 5], [], [] ++ ["\nGAME OVER! Zero balance." ++ "\n"]⟩
    ∧ (main [Token.num 1000, Token.chr 'h', Token.chr 'y', Token.num 5] [id]).map Prod.fst
        = some 0 :=
  ⟨(zero_balance_ends_session 'y' [] ⟨0, [Token.num 5], ⟨[]⟩, [], [], []⟩ rfl).1,
   by
    rw [(zero_balance_ends_session 'y' [] ⟨0, [Token.num 5], ⟨[]⟩, [], [], []⟩ rfl).2.2.2.2.2
      [Token.num 1000, Token.chr 'h', Token.chr 'y', Token.num 5] [id] 5
      ((mainLoop 5 ⟨1000, 'y', [Token.num 1000, Token.chr 'h', Token.chr 'y', Token.num 5],
        [id], banner⟩).get (by decide))
      (Option.some_get _).symm]
    decide⟩

/-- On the unshuffled deck the round of a player who hits once and would then
stand ends, with at most 21 cards in the two hands. -/
theorem round_draws_at_most_21_witness :
    ∃ r, playRound id 1000 50 [Token.chr 'h', Token.chr 's'] [] = some r
      ∧ r.deck.cards.length + (r.playerHand.length + r.dealerHand.length) = 52
      ∧ r.playerHand.length + r.dealerHand.length ≤ 21
      ∧ 31 ≤ r.deck.cards.length :=
  match (round_draws_at_most_21 id (List.Perm.refl _) 1000 50 []).1 ['h', 's'] []
      (Or.inl ⟨'s', by decide, by decide⟩) with
  | ⟨r, hr⟩ =>
    ⟨r, hr, (round_draws_at_most_21 id (List.Perm.refl _) 1000 50 []).2 _ r hr⟩

/-- With 21 in hand the player's loop ends without reading the pending `'h'`;
with 20 the decision `'s'` ends it with hand and deck unchanged. -/
theorem player_turn_steps_witness :
    (playerLoop [⟨Rank.NINE, Suit.SPADES⟩, ⟨Rank.EIGHT, Suit.SPADES⟩] [Token.chr 'h']
        ⟨[⟨Rank.TWO, Suit.CLUBS⟩]⟩
        [⟨Rank.ACE, Suit.SPADES⟩, ⟨Rank.KING, Suit.SPADES⟩] []).map
          (fun pt => (pt.input, pt.deck, pt.playerHand))
      = some ([Token.chr 'h'], ⟨[⟨Rank.TWO, Suit.CLUBS⟩]⟩,
          [⟨Rank.ACE, Suit.SPADES⟩, ⟨Rank.KING, Suit.SPADES⟩])
    ∧ (playerLoop [⟨Rank.NINE, Suit.SPADES⟩, ⟨Rank.EIGHT, Suit.SPADES⟩] [Token.chr 's']
        ⟨[⟨Rank.TWO, Suit.CLUBS⟩]⟩
        [⟨Rank.QUEEN, Suit.SPADES⟩, ⟨Rank.KING, Suit.SPADES⟩] []).map
          (fun pt => (pt.input, pt.deck, pt.playerHand))
      = some ([], ⟨[⟨Rank.TWO, Suit.CLUBS⟩]⟩,
          [⟨Rank.QUEEN, Suit.SPADES⟩, ⟨Rank.KING, Suit.SPADES⟩]) :=
  ⟨by
    rw [(player_turn_steps [⟨Rank.NINE, Suit.SPADES⟩, ⟨Rank.EIGHT, Suit.SPADES⟩]
      [Token.chr 'h'] ⟨[⟨Rank.TWO, Suit.CLUBS⟩]⟩
      [⟨Rank.ACE, Suit.SPADES⟩, ⟨Rank.KING, Suit.SPADES⟩] []).1 (by decide)]
    rfl,
   by
    rw [(player_turn_steps [⟨Rank.NINE, Suit.SPADES⟩, ⟨Rank.EIGHT, Suit.SPADES⟩]
      [Token.chr 's'] ⟨[⟨Rank.TWO, Suit.CLUBS⟩]⟩
      [⟨Rank.QUEEN, Suit.SPADES⟩, ⟨Rank.KING, Suit.SPADES⟩] []).2.2.1 (by decide) [] rfl]
    rfl⟩

/-- On the unshuffled deck the round of a player who hits once holds, at its
end, the 52 cards of the fresh deck in deck and hands, none twice. -/
theorem cards_conserved_witness :
    ∃ r, playRound id 1000 50 [Token.chr 'h'] [] = some r
      ∧ (r.deck.cards ++ (r.playerHand ++ r.dealerHand)).Perm Deck.new.cards
      ∧ (r.playerHand ++ r.dealerHand).Nodup :=
  ⟨(playRound id 1000 50 [Token.chr 'h'] []).get (by decide),
   (Option.some_get _).symm,
   ((cards_conserved id (List.Perm.refl _) 1000 50 [Token.chr 'h'] []).2.2.2 _
      (Option.some_get _).symm).1,
   ((cards_conserved id (List.Perm.refl _) 1000 50 [Token.chr 'h'] []).2.2.2 _
      (Option.some_get _).symm).2.2.1⟩

/-- From the fresh deck the dealer holding 2 and 3 ends between 17 and 26. -/
theorem dealer_final_score_bounds_witness :
    ∃ d1 h1, dealerTurn Deck.new [⟨Rank.TWO, Suit.HEARTS⟩, ⟨Rank.THREE, Suit.SPADES⟩]
        = some (d1, h1)
      ∧ 17 ≤ calculatePoints h1 ∧ calculatePoints h1 ≤ 26 :=
  (dealer_final_score_bounds Deck.new
    [⟨Rank.TWO, Suit.HEARTS⟩, ⟨Rank.THREE, Suit.SPADES⟩] rfl).2 (by decide)

/-- Ace, 9, 5 scores the same in another order and in other suits. -/
theorem calculatePoints_order_suit_independent_witness :
    calculatePoints [⟨Rank.ACE, Suit.HEARTS⟩, ⟨Rank.NINE, Suit.CLUBS⟩, ⟨Rank.FIVE, Suit.DIAMONDS⟩]
      = calculatePoints
          [⟨Rank.NINE, Suit.CLUBS⟩, ⟨Rank.ACE, Suit.HEARTS⟩, ⟨Rank.FIVE, Suit.DIAMONDS⟩]
    ∧ calculatePoints
        [⟨Rank.ACE, Suit.HEARTS⟩, ⟨Rank.NINE, Suit.CLUBS⟩, ⟨Rank.FIVE, Suit.DIAMONDS⟩]
      = calculatePoints
          [⟨Rank.ACE, Suit.SPADES⟩, ⟨Rank.NINE, Suit.SPADES⟩, ⟨Rank.FIVE, Suit.SPADES⟩] :=
  ⟨(calculatePoints_order_suit_independent _ _).1 (List.Perm.swap _ _ _),
   (calculatePoints_order_suit_independent _ _).2.1 rfl⟩

/-- After 20 all-in wins the balance is 1048576000, and the all-in bet on it
still wins the exact sum 2097152000. -/
theorem balance_update_in_range_witness :
    inIntRange ((1048576000 : Int) + 1048576000)
    ∧ addInt32 1048576000 1048576000 = 1048576000 + 1048576000
    ∧ (settle 1048576000 1048576000 20 17).1 = 1048576000 + 1048576000 := by
  obtain ⟨out1, hreach⟩ := all_in_run 20 (by decide) [] [] (by intro f hf; simp at hf)
  have e : (1000 : Int) * 2 ^ 20 = 1048576000 := by norm_num
  rw [e] at hreach
  have h := balance_update_in_range 20 _ hreach (le_refl _) 1048576000 (by decide) (le_refl _)
  exact ⟨h.2.2.1, h.2.2.2.1, h.2.2.2.2 20 17 (Or.inr (by decide))⟩

/-! ## Theorems: the bet -/

end Blackjack
